import Mathlib

/-!
# CList: a singly linked list in C (clist.c, clist.h, main.c)

A shallow embedding of the list operations of `clist.c` over an explicit heap,
followed by theorems about them.

Modelling conventions.

* A pointer is a natural number, `NULL` is `0`.  The heap maps an address to the
  `t_node` stored there, or to `none` when no live block starts at that address
  (never allocated, or already passed to `free`).
* Reading or writing a field through a pointer that is `NULL` or not live, and
  freeing a non-null pointer that is not live, is undefined behaviour in C; the
  model stops with `Fault.invalidPointer`.
* `t_node ** p_head` designates a variable of the caller (`list1` in `main.c`);
  `Mem.head` is the content of that variable.
* The payload `void * p_data` is kept as a pointer value; the list never
  dereferences it.
* Every `while` loop is a function that is structurally recursive on a fuel
  argument which bounds the number of evaluations of the loop condition; running
  out of fuel is `Fault.outOfFuel`.  The theorems give, for a well-formed list, a
  fuel bound from which the result is produced.
* `malloc(sizeof(t_node))` is resolved by a `Malloc` argument: the pointer the
  allocator returns (`NULL` on failure) and the indeterminate initial content of
  the new block.
* `int` is a 32-bit two's complement integer: `counter++` wraps (`wrap_int`).
-/

namespace CList

/-- A C pointer value. -/
abbrev Ptr := Nat

/-- The null pointer. -/
def NULL : Ptr := 0

/-- The record `struct s_node` of clist.h: the link to the next node and the
pointer to the associated value. -/
structure t_node where
  p_next : Ptr
  p_data : Ptr
deriving DecidableEq, Repr

/-- The ways an execution can stop without a result. -/
inductive Fault where
  | invalidPointer
  | outOfFuel
deriving DecidableEq, Repr

/-- The heap of list nodes: the live block at each address, if there is one. -/
abbrev Heap := Ptr → Option t_node

/-- The state a list operation works on: the node heap and the caller's head
variable, to which `p_head` points. -/
structure Mem where
  heap : Heap
  head : Ptr

/-- Read the node behind a pointer, as in `p->p_next` or `p->p_data` on the right of
an assignment. -/
def load (h : Heap) (p : Ptr) : Except Fault t_node :=
  if p = NULL then Except.error Fault.invalidPointer
  else
    match h p with
    | some n => Except.ok n
    | none => Except.error Fault.invalidPointer

/-- Overwrite the block at an address. -/
def write (h : Heap) (p : Ptr) (n : t_node) : Heap :=
  fun q => if q = p then some n else h q

/-- The assignment `p->p_next = v`. -/
def set_p_next (h : Heap) (p : Ptr) (v : Ptr) : Except Fault Heap :=
  match load h p with
  | Except.ok n => Except.ok (write h p (t_node.mk v n.p_data))
  | Except.error e => Except.error e

/-- The assignment `p->p_data = v`. -/
def set_p_data (h : Heap) (p : Ptr) (v : Ptr) : Except Fault Heap :=
  match load h p with
  | Except.ok n => Except.ok (write h p (t_node.mk n.p_next v))
  | Except.error e => Except.error e

/-- The call `free(p)`: nothing happens for a null pointer, a live block is released,
anything else is a fault. -/
def free (h : Heap) (p : Ptr) : Except Fault Heap :=
  if p = NULL then Except.ok h
  else
    match h p with
    | some _ => Except.ok (fun q => if q = p then none else h q)
    | none => Except.error Fault.invalidPointer

/-- What one call `malloc(sizeof(t_node))` answers: the returned pointer (`NULL` when
the allocation fails) and the indeterminate content of the fresh block. -/
structure Malloc where
  ptr : Ptr
  block : t_node

/-- The call `malloc(sizeof(t_node))` resolved by `a`. -/
def malloc (h : Heap) (a : Malloc) : Heap × Ptr :=
  if a.ptr = NULL then (h, NULL) else (write h a.ptr a.block, a.ptr)

/-- The loop of `cl_print` (clist.c 36-39); the result is the sequence of payload
pointers handed to the `print` callback. -/
def cl_print_loop (h : Heap) : Nat → Ptr → Except Fault (List Ptr)
  | 0, _ => Except.error Fault.outOfFuel
  | fuel + 1, p_current =>
    if p_current = NULL then Except.ok []
    else
      match load h p_current with
      | Except.error e => Except.error e
      | Except.ok n =>
        match cl_print_loop h fuel n.p_next with
        | Except.error e => Except.error e
        | Except.ok rest => Except.ok (n.p_data :: rest)

/-- The function `cl_print` (clist.c 23-41): the head-to-tail traversal, returning the
payload pointers in the order in which `print` receives them. -/
def cl_print (fuel : Nat) (h : Heap) (p_head : Ptr) : Except Fault (List Ptr) :=
  if p_head = NULL then Except.ok [] else cl_print_loop h fuel p_head

/-- The loop of `cl_clear` (clist.c 118-133). -/
def cl_clear_loop : Nat → Heap → Ptr → Except Fault Heap
  | 0, _, _ => Except.error Fault.outOfFuel
  | fuel + 1, h, p_current =>
    if p_current = NULL then Except.ok h
    else
      match load h p_current with
      | Except.error e => Except.error e
      | Except.ok n =>
        let p_next := n.p_next
        match set_p_data h p_current NULL with
        | Except.error e => Except.error e
        | Except.ok h1 =>
          match set_p_next h1 p_current NULL with
          | Except.error e => Except.error e
          | Except.ok h2 =>
            let p_current := NULL
            match free h2 p_current with
            | Except.error e => Except.error e
            | Except.ok h3 => cl_clear_loop fuel h3 p_next

/-- The function `cl_clear` (clist.c 104-134). -/
def cl_clear (fuel : Nat) (m : Mem) : Except Fault Mem :=
  if m.head = NULL then Except.ok m
  else
    match cl_clear_loop fuel m.heap m.head with
    | Except.error e => Except.error e
    | Except.ok h => Except.ok (Mem.mk h m.head)

/-- The loop of `cl_reverse` (clist.c 161-166); returns the heap and `p_previous`. -/
def cl_reverse_loop : Nat → Heap → Ptr → Ptr → Except Fault (Heap × Ptr)
  | 0, _, _, _ => Except.error Fault.outOfFuel
  | fuel + 1, h, p_current, p_previous =>
    if p_current = NULL then Except.ok (h, p_previous)
    else
      match load h p_current with
      | Except.error e => Except.error e
      | Except.ok n =>
        let p_next := n.p_next
        match set_p_next h p_current p_previous with
        | Except.error e => Except.error e
        | Except.ok h1 => cl_reverse_loop fuel h1 p_next p_current

/-- The function `cl_reverse` (clist.c 145-170). -/
def cl_reverse (fuel : Nat) (m : Mem) : Except Fault Mem :=
  if m.head = NULL then Except.ok m
  else
    match cl_reverse_loop fuel m.heap m.head NULL with
    | Except.error e => Except.error e
    | Except.ok (h, p_previous) => Except.ok (Mem.mk h p_previous)

/-- The loop of `cl_push` (clist.c 203-205); returns `p_current`. -/
def cl_push_loop (h : Heap) : Nat → Ptr → Except Fault Ptr
  | 0, _ => Except.error Fault.outOfFuel
  | fuel + 1, p_current =>
    if p_current = NULL then Except.ok p_current
    else
      match load h p_current with
      | Except.error e => Except.error e
      | Except.ok n =>
        if n.p_next = NULL then Except.ok p_current
        else cl_push_loop h fuel n.p_next

/-- The function `cl_push` (clist.c 183-223). -/
def cl_push (fuel : Nat) (a : Malloc) (m : Mem) (p_newData : Ptr) : Except Fault Mem :=
  match malloc m.heap a with
  | (h0, p_newNode) =>
    if p_newNode = NULL then Except.ok m
    else
      match set_p_data h0 p_newNode p_newData with
      | Except.error e => Except.error e
      | Except.ok h1 =>
        match cl_push_loop h1 fuel m.head with
        | Except.error e => Except.error e
        | Except.ok p_current =>
          if p_current = NULL then
            match set_p_next h1 p_newNode NULL with
            | Except.error e => Except.error e
            | Except.ok h2 => Except.ok (Mem.mk h2 p_newNode)
          else
            match set_p_next h1 p_current p_newNode with
            | Except.error e => Except.error e
            | Except.ok h2 =>
              match set_p_next h2 p_newNode NULL with
              | Except.error e => Except.error e
              | Except.ok h3 => Except.ok (Mem.mk h3 m.head)

/-- The loop of `cl_pop` (clist.c 250-253); returns `p_current` and `p_previous`. -/
def cl_pop_loop (h : Heap) : Nat → Ptr → Ptr → Except Fault (Ptr × Ptr)
  | 0, _, _ => Except.error Fault.outOfFuel
  | fuel + 1, p_current, p_previous =>
    match load h p_current with
    | Except.error e => Except.error e
    | Except.ok n =>
      if n.p_next = NULL then Except.ok (p_current, p_previous)
      else cl_pop_loop h fuel n.p_next p_current

/-- The function `cl_pop` (clist.c 235-268); returns the result pointer and the
state. -/
def cl_pop (fuel : Nat) (m : Mem) : Except Fault (Ptr × Mem) :=
  if m.head = NULL then Except.ok (NULL, m)
  else
    match cl_pop_loop m.heap fuel m.head NULL with
    | Except.error e => Except.error e
    | Except.ok (p_current, p_previous) =>
      match load m.heap p_current with
      | Except.error e => Except.error e
      | Except.ok n =>
        let p_data := n.p_data
        match (if p_previous ≠ NULL then set_p_next m.heap p_previous NULL
               else Except.ok m.heap) with
        | Except.error e => Except.error e
        | Except.ok h1 =>
          match free h1 p_current with
          | Except.error e => Except.error e
          | Except.ok h2 => Except.ok (p_data, Mem.mk h2 m.head)

/-- The function `cl_shift` (clist.c 297-321); returns the result pointer and the
state. -/
def cl_shift (m : Mem) : Except Fault (Ptr × Mem) :=
  if m.head = NULL then Except.ok (NULL, m)
  else
    match load m.heap m.head with
    | Except.error e => Except.error e
    | Except.ok n =>
      let p_data := n.p_data
      let p_next := n.p_next
      let head := if p_next ≠ NULL then p_next else m.head
      match free m.heap head with
      | Except.error e => Except.error e
      | Except.ok h1 => Except.ok (p_data, Mem.mk h1 head)

/-- The largest value of the C type `int`. -/
def INT_MAX : Int := 2147483647

/-- The smallest value of the C type `int`. -/
def INT_MIN : Int := -2147483648

/-- Reduction of an integer to the 32-bit two's complement range. -/
def wrap_int (x : Int) : Int := (x + 2147483648) % 4294967296 - 2147483648

/-- The counting loop `while (p_current != NULL && counter++ < index)`, with the same
text in `cl_insert_value_at_index` (clist.c 352-355) and `cl_delete_by_index`
(clist.c 412-415); returns `p_current` and `p_previous`. -/
def cl_index_loop (h : Heap) (index : Int) : Nat → Ptr → Ptr → Int → Except Fault (Ptr × Ptr)
  | 0, _, _, _ => Except.error Fault.outOfFuel
  | fuel + 1, p_current, p_previous, counter =>
    if p_current = NULL then Except.ok (p_current, p_previous)
    else if counter < index then
      match load h p_current with
      | Except.error e => Except.error e
      | Except.ok n => cl_index_loop h index fuel n.p_next p_current (wrap_int (counter + 1))
    else Except.ok (p_current, p_previous)

/-- The function `cl_insert_value_at_index` (clist.c 334-383). -/
def cl_insert_value_at_index (fuel : Nat) (a : Malloc) (m : Mem) (p_data : Ptr)
    (index : Int) : Except Fault Mem :=
  if m.head = NULL ∧ index ≠ 0 then Except.ok m
  else
    match cl_index_loop m.heap index fuel m.head NULL 0 with
    | Except.error e => Except.error e
    | Except.ok (p_current, p_previous) =>
      if p_current = NULL then cl_push fuel a m p_data
      else
        match malloc m.heap a with
        | (h0, p_newNode) =>
          if p_newNode = NULL then Except.ok m
          else
            match (if p_previous ≠ NULL then
                     match set_p_next h0 p_previous p_newNode with
                     | Except.error e => Except.error e
                     | Except.ok h1 => Except.ok (h1, m.head)
                   else Except.ok (h0, p_newNode)) with
            | Except.error e => Except.error e
            | Except.ok (h1, head) =>
              match set_p_next h1 p_newNode p_current with
              | Except.error e => Except.error e
              | Except.ok h2 =>
                match set_p_data h2 p_newNode p_data with
                | Except.error e => Except.error e
                | Except.ok h3 => Except.ok (Mem.mk h3 head)

/-- The function `cl_unshift` (clist.c 281-285). -/
def cl_unshift (fuel : Nat) (a : Malloc) (m : Mem) (p_newData : Ptr) : Except Fault Mem :=
  cl_insert_value_at_index fuel a m p_newData 0

/-- The function `cl_delete_by_index` (clist.c 395-438); returns the result pointer
and the state. -/
def cl_delete_by_index (fuel : Nat) (m : Mem) (index : Int) : Except Fault (Ptr × Mem) :=
  if m.head = NULL then Except.ok (NULL, m)
  else
    match cl_index_loop m.heap index fuel m.head NULL 0 with
    | Except.error e => Except.error e
    | Except.ok (p_current, p_previous) =>
      if p_current = NULL then Except.ok (0, m)
      else
        match load m.heap p_current with
        | Except.error e => Except.error e
        | Except.ok n =>
          let p_data := n.p_data
          match (if p_previous = NULL then Except.ok (m.heap, n.p_next)
                 else
                   match set_p_next m.heap p_previous n.p_next with
                   | Except.error e => Except.error e
                   | Except.ok h1 => Except.ok (h1, m.head)) with
          | Except.error e => Except.error e
          | Except.ok (h1, head) =>
            match free h1 p_current with
            | Except.error e => Except.error e
            | Except.ok h2 => Except.ok (p_data, Mem.mk h2 head)

/-- The loop of `cl_delete_by_value` (clist.c 466-469); `compare` is the callback,
whose nonzero result keeps the scan going. -/
def cl_delete_by_value_loop (h : Heap) (target : Int) (compare : Ptr → Int → Int) :
    Nat → Ptr → Ptr → Except Fault (Ptr × Ptr)
  | 0, _, _ => Except.error Fault.outOfFuel
  | fuel + 1, p_current, p_previous =>
    if p_current = NULL then Except.ok (p_current, p_previous)
    else
      match load h p_current with
      | Except.error e => Except.error e
      | Except.ok n =>
        if compare n.p_data target ≠ 0 then
          cl_delete_by_value_loop h target compare fuel n.p_next p_current
        else Except.ok (p_current, p_previous)

/-- The function `cl_delete_by_value` (clist.c 451-487). -/
def cl_delete_by_value (fuel : Nat) (m : Mem) (target : Int) (compare : Ptr → Int → Int) :
    Except Fault Mem :=
  if m.head = NULL then Except.ok m
  else
    match cl_delete_by_value_loop m.heap target compare fuel m.head NULL with
    | Except.error e => Except.error e
    | Except.ok (p_current, p_previous) =>
      if p_current = NULL then Except.ok m
      else
        match load m.heap p_current with
        | Except.error e => Except.error e
        | Except.ok n =>
          match (if p_previous = NULL then Except.ok (m.heap, n.p_next)
                 else
                   match set_p_next m.heap p_previous n.p_next with
                   | Except.error e => Except.error e
                   | Except.ok h1 => Except.ok (h1, m.head)) with
          | Except.error e => Except.error e
          | Except.ok (h1, head) =>
            match free h1 p_current with
            | Except.error e => Except.error e
            | Except.ok h2 => Except.ok (Mem.mk h2 head)

/-- The function `cl_compare_int` (clist.c 499-501); `ints` is the caller's memory of
`int` objects, read by `*(int *) p_data`. -/
def cl_compare_int (ints : Ptr → Int) (p_data : Ptr) (target : Int) : Int :=
  if ints p_data ≠ target then 1 else 0

/-- The list segment predicate: following `p_next` from `p` visits exactly the nodes
of `cells` (address and payload of each, in order) and then arrives at `q`. -/
def Seg (h : Heap) : Ptr → List (Ptr × Ptr) → Ptr → Prop
  | p, [], q => p = q
  | p, c :: cs, q =>
    p = c.1 ∧ c.1 ≠ NULL ∧ ∃ nx, h c.1 = some (t_node.mk nx c.2) ∧ Seg h nx cs q

/-- A well-formed list: a finite chain of live nodes from `p` whose last `p_next` is
`NULL`; `cells` lists the address and the payload of each node from head to tail. -/
def ListAt (h : Heap) (p : Ptr) (cells : List (Ptr × Ptr)) : Prop :=
  Seg h p cells NULL

instance instDecidableEqExcept {ε α : Type} [DecidableEq ε] [DecidableEq α] :
    DecidableEq (Except ε α)
  | Except.ok a, Except.ok b =>
    if h : a = b then isTrue (by rw [h]) else isFalse (fun e => h (Except.ok.inj e))
  | Except.error a, Except.error b =>
    if h : a = b then isTrue (by rw [h]) else isFalse (fun e => h (Except.error.inj e))
  | Except.ok _, Except.error _ => isFalse (fun e => Except.noConfusion e)
  | Except.error _, Except.ok _ => isFalse (fun e => Except.noConfusion e)

instance Seg.instDecidable (h : Heap) : (p : Ptr) → (cs : List (Ptr × Ptr)) → (q : Ptr) →
    Decidable (Seg h p cs q)
  | p, [], q => inferInstanceAs (Decidable (p = q))
  | p, c :: cs, q =>
    if hp : p = c.1 then
      if hc : c.1 = NULL then isFalse (fun hs => hs.2.1 hc)
      else
        match hh : h c.1 with
        | none => isFalse (fun hs => by
            obtain ⟨_, _, nx, hnx, _⟩ := hs
            rw [hh] at hnx
            exact Option.noConfusion hnx)
        | some n =>
          if hd : n.p_data = c.2 then
            match Seg.instDecidable h n.p_next cs q with
            | isTrue hs => isTrue ⟨hp, hc, n.p_next, by rw [hh, ← hd], hs⟩
            | isFalse hs => isFalse (fun hs2 => by
                obtain ⟨_, _, nx, hnx, hrest⟩ := hs2
                rw [hh] at hnx
                have hn : n = t_node.mk nx c.2 := Option.some.inj hnx
                subst hn
                exact hs hrest)
          else isFalse (fun hs2 => by
                obtain ⟨_, _, nx, hnx, _⟩ := hs2
                rw [hh] at hnx
                have hn : n = t_node.mk nx c.2 := Option.some.inj hnx
                subst hn
                exact hd rfl)
    else isFalse (fun hs => hp hs.1)

instance ListAt.instDecidable (h : Heap) (p : Ptr) (cs : List (Ptr × Ptr)) :
    Decidable (ListAt h p cs) :=
  Seg.instDecidable h p cs NULL

/-- The heap that holds exactly the listed blocks. -/
def heapOf : List (Ptr × t_node) → Heap
  | [] => fun _ => none
  | c :: cs => write (heapOf cs) c.1 c.2

/-- A list of three nodes at the addresses 1, 2, 3 with the payloads 10, 20, 30. -/
def mem3 : Mem :=
  Mem.mk (heapOf [(1, t_node.mk 2 10), (2, t_node.mk 3 20), (3, t_node.mk NULL 30)]) 1

/-- A list of two nodes at the addresses 1, 2 with the payloads 10, 20. -/
def mem2 : Mem := Mem.mk (heapOf [(1, t_node.mk 2 10), (2, t_node.mk NULL 20)]) 1

/-- A list of one node at the address 1 with the payload 10. -/
def mem1 : Mem := Mem.mk (heapOf [(1, t_node.mk NULL 10)]) 1

/-- The empty list in a heap without blocks. -/
def mem0 : Mem := Mem.mk (heapOf []) NULL

/-- An allocation that succeeds at the address 4; the block arrives with arbitrary
content. -/
def alloc4 : Malloc := Malloc.mk 4 (t_node.mk 7 7)

/-- Successive calls `cl_push(&list, v)`, one for each entry of `calls` in order, as in
the loop of main.c 39-42; an entry gives the answer of that call's `malloc` and the
payload `v`. -/
def cl_push_all (fuel : Nat) : List (Malloc × Ptr) → Mem → Except Fault Mem
  | [], m => Except.ok m
  | c :: rest, m =>
    match cl_push fuel c.1 m c.2 with
    | Except.error e => Except.error e
    | Except.ok m1 => cl_push_all fuel rest m1

/-- `n` consecutive calls `cl_shift(&list)`; returns the results in call order and the
final state. -/
def cl_shift_all : Nat → Mem → Except Fault (List Ptr × Mem)
  | 0, m => Except.ok ([], m)
  | n + 1, m =>
    match cl_shift m with
    | Except.error e => Except.error e
    | Except.ok (p, m1) =>
      match cl_shift_all n m1 with
      | Except.error e => Except.error e
      | Except.ok (ps, m2) => Except.ok (p :: ps, m2)

/-- The caller's memory of `int` objects used in the examples: the object at the
address `p` holds the value `p / 10`, so the payload pointers 10, 20, 21, 30, 50 point
to the values 1, 2, 2, 3, 5. -/
def int_at (p : Ptr) : Int := ((p / 10 : Nat) : Int)

/-- A list of four nodes at the addresses 1, 2, 3, 4 whose payloads point to the `int`
values 1, 2, 3, 2. -/
def mem4 : Mem :=
  Mem.mk (heapOf [(1, t_node.mk 2 10), (2, t_node.mk 3 20), (3, t_node.mk 4 30),
    (4, t_node.mk NULL 21)]) 1

/-- An allocation that fails. -/
def alloc_fail : Malloc := Malloc.mk NULL (t_node.mk 7 7)

/-- What an observer sees of a list of `int` payloads: the head pointer and the values
that `cl_print` with `cl_print_int` shows, head to tail. -/
def shown (m : Mem) : Ptr × Except Fault (List Int) :=
  (m.head, (cl_print 8 m.heap m.head).map (List.map int_at))

/-- The scenario of the specification, first step: on the empty list, push the values
1, 2, 3 (payload pointers 10, 20, 30; the allocations answer the addresses 1, 2, 3). -/
def scenario_pushed : Except Fault Mem :=
  cl_push_all 8 [(Malloc.mk 1 (t_node.mk 7 7), 10), (Malloc.mk 2 (t_node.mk 7 7), 20),
    (Malloc.mk 3 (t_node.mk 7 7), 30)] mem0

/-- The scenario, second step: `cl_reverse`. -/
def scenario_reversed : Except Fault Mem :=
  scenario_pushed.bind (cl_reverse 8)

/-- The scenario, third step: `cl_pop`. -/
def scenario_popped : Except Fault (Ptr × Mem) :=
  scenario_reversed.bind (cl_pop 8)

/-- The scenario, fourth step: `cl_delete_by_index` at index 0. -/
def scenario_deleted : Except Fault (Ptr × Mem) :=
  scenario_popped.bind (fun r => cl_delete_by_index 8 r.2 0)

/-- The scenario, fifth step: `cl_insert_value_at_index` of the value 5 (payload pointer
50) at index 5; the allocation answers the address 4. -/
def scenario_inserted : Except Fault Mem :=
  scenario_deleted.bind (fun r => cl_insert_value_at_index 8 alloc4 r.2 50 5)

/-- The scenario, sixth step: `cl_delete_by_value` of the value 2 with
`cl_compare_int`. -/
def scenario_value_deleted : Except Fault Mem :=
  scenario_inserted.bind (fun r => cl_delete_by_value 8 r 2 (cl_compare_int int_at))

/-- The scenario, last step: `cl_clear`. -/
def scenario_cleared : Except Fault Mem :=
  scenario_value_deleted.bind (cl_clear 8)

/-- The least zero-based position of a payload for which the comparator answers 0
("match"), or the length of the list when there is none; it follows the wording of the
claim that relates `cl_delete_by_value` to `cl_delete_by_index`. -/
def first_match (compare : Ptr → Int → Int) (target : Int) : List Ptr → Nat
  | [] => 0
  | v :: vs => if compare v target = 0 then 0 else first_match compare target vs + 1

/-! ## Lemmas -/

/-- Reading through a non-null pointer to a live block succeeds. -/
theorem load_live {h : Heap} {p : Ptr} {n : t_node} (hp : p ≠ NULL) (hn : h p = some n) :
    load h p = Except.ok n := by
  simp [load, hp, hn]

/-- Writing `p_next` through a non-null pointer to a live block. -/
theorem set_p_next_live {h : Heap} {p : Ptr} {n : t_node} (v : Ptr) (hp : p ≠ NULL)
    (hn : h p = some n) : set_p_next h p v = Except.ok (write h p (t_node.mk v n.p_data)) := by
  simp [set_p_next, load_live hp hn]

/-- Writing `p_data` through a non-null pointer to a live block. -/
theorem set_p_data_live {h : Heap} {p : Ptr} {n : t_node} (v : Ptr) (hp : p ≠ NULL)
    (hn : h p = some n) : set_p_data h p v = Except.ok (write h p (t_node.mk n.p_next v)) := by
  simp [set_p_data, load_live hp hn]

/-- Releasing a live block. -/
theorem free_live {h : Heap} {p : Ptr} {n : t_node} (hp : p ≠ NULL) (hn : h p = some n) :
    free h p = Except.ok (fun q => if q = p then none else h q) := by
  simp [free, hp, hn]

/-- A written block is read back. -/
@[simp] theorem write_same (h : Heap) (p : Ptr) (n : t_node) : write h p n p = some n := by
  simp [write]

/-- Writing a block leaves the other addresses alone. -/
theorem write_other (h : Heap) {p q : Ptr} (n : t_node) (hq : q ≠ p) : write h p n q = h q := by
  simp [write, hq]

/-- The empty segment. -/
@[simp] theorem Seg_nil (h : Heap) (p q : Ptr) : Seg h p [] q ↔ p = q := Iff.rfl

/-- Unfolding a segment at its first node. -/
theorem Seg_cons (h : Heap) (p q : Ptr) (c : Ptr × Ptr) (cs : List (Ptr × Ptr)) :
    Seg h p (c :: cs) q ↔
      p = c.1 ∧ c.1 ≠ NULL ∧ ∃ nx, h c.1 = some (t_node.mk nx c.2) ∧ Seg h nx cs q := Iff.rfl

/-- Splitting a segment at an intermediate node. -/
theorem Seg_append (h : Heap) (c1 c2 : List (Ptr × Ptr)) (p q : Ptr) :
    Seg h p (c1 ++ c2) q ↔ ∃ r, Seg h p c1 r ∧ Seg h r c2 q := by
  induction c1 generalizing p with
  | nil => simp
  | cons c cs ih =>
    simp only [List.cons_append, Seg_cons, ih]
    constructor
    · rintro ⟨h1, h2, nx, h3, r, h4, h5⟩
      exact ⟨r, ⟨h1, h2, nx, h3, h4⟩, h5⟩
    · rintro ⟨r, ⟨h1, h2, nx, h3, h4⟩, h5⟩
      exact ⟨h1, h2, nx, h3, r, h4, h5⟩

/-- Frame rule: a segment only depends on the heap at its own addresses. -/
theorem Seg_congr {h h2 : Heap} {cs : List (Ptr × Ptr)} {p q : Ptr}
    (hagree : ∀ a ∈ cs.map Prod.fst, h2 a = h a) (hs : Seg h p cs q) : Seg h2 p cs q := by
  induction cs generalizing p with
  | nil => exact hs
  | cons c cs ih =>
    obtain ⟨h1, hne, nx, h3, h4⟩ := hs
    refine ⟨h1, hne, nx, ?_, ih (fun a ha => hagree a (by simp at ha ⊢; exact Or.inr ha)) h4⟩
    rw [hagree c.1 (by simp)]
    exact h3

/-- Every node of a segment is a non-null live block. -/
theorem Seg_live {h : Heap} {cs : List (Ptr × Ptr)} {p q : Ptr} (hs : Seg h p cs q) :
    ∀ a ∈ cs.map Prod.fst, a ≠ NULL ∧ h a ≠ none := by
  induction cs generalizing p with
  | nil => simp
  | cons c cs ih =>
    obtain ⟨_, hne, nx, h3, h4⟩ := hs
    intro a ha
    simp only [List.map_cons, List.mem_cons] at ha
    rcases ha with rfl | ha
    · exact ⟨hne, by simp [h3]⟩
    · exact ih h4 a ha

/-- A well-formed list is determined by its head and the heap. -/
theorem ListAt_unique {h : Heap} {p : Ptr} {c1 c2 : List (Ptr × Ptr)}
    (h1 : ListAt h p c1) (h2 : ListAt h p c2) : c1 = c2 := by
  induction c1 generalizing p c2 with
  | nil =>
    cases c2 with
    | nil => rfl
    | cons d ds =>
      have hp : p = NULL := h1
      obtain ⟨e1, e2, _⟩ := h2
      exact absurd (e1 ▸ hp) e2
  | cons c cs ih =>
    cases c2 with
    | nil =>
      have hp : p = NULL := h2
      obtain ⟨e1, e2, _⟩ := h1
      exact absurd (e1 ▸ hp) e2
    | cons d ds =>
      obtain ⟨e1, _, nx, e3, e4⟩ := h1
      obtain ⟨f1, _, ny, f3, f4⟩ := h2
      have hcd : c.1 = d.1 := e1.symm.trans f1
      rw [hcd, f3] at e3
      have hn := Option.some.inj e3
      injection hn with hnx hdata
      subst hnx
      have := ih e4 f4
      subst this
      have : c = d := Prod.ext hcd hdata.symm
      rw [this]

/-- The nodes of a well-formed list are pairwise distinct: the chain is acyclic. -/
theorem ListAt_nodup {h : Heap} {p : Ptr} {cs : List (Ptr × Ptr)} (hl : ListAt h p cs) :
    (cs.map Prod.fst).Nodup := by
  induction cs generalizing p with
  | nil => simp
  | cons c cs ih =>
    obtain ⟨e1, e2, nx, e3, e4⟩ := hl
    have hrest : ListAt h nx cs := e4
    simp only [List.map_cons, List.nodup_cons]
    refine ⟨?_, ih hrest⟩
    intro hmem
    obtain ⟨d, hd, hdc⟩ := List.mem_map.mp hmem
    obtain ⟨l1, l2, hsplit⟩ := List.append_of_mem hd
    have h5 : Seg h nx (l1 ++ d :: l2) NULL := hsplit ▸ e4
    obtain ⟨r, _, h6⟩ := (Seg_append h l1 (d :: l2) nx NULL).mp h5
    have hr : r = c.1 := h6.1.trans hdc
    have h7 : ListAt h c.1 (d :: l2) := hr ▸ h6
    have h8 : ListAt h c.1 (c :: cs) := ⟨rfl, e2, nx, e3, e4⟩
    have h9 := ListAt_unique h7 h8
    have hlen := congrArg List.length h9
    have hlen2 := congrArg List.length hsplit
    simp at hlen hlen2
    omega

/-- Traversal of a well-formed list: `cl_print` hands the payloads to the callback in
head-to-tail order. -/
theorem cl_print_loop_list {h : Heap} {cs : List (Ptr × Ptr)} {p : Ptr} {fuel : Nat}
    (hl : ListAt h p cs) (hf : cs.length < fuel) :
    cl_print_loop h fuel p = Except.ok (cs.map Prod.snd) := by
  induction cs generalizing p fuel with
  | nil =>
    have hp : p = NULL := hl
    cases fuel with
    | zero => simp at hf
    | succ f => simp [cl_print_loop, hp]
  | cons c cs ih =>
    obtain ⟨e1, e2, nx, e3, e4⟩ := hl
    cases fuel with
    | zero => simp at hf
    | succ f =>
      have hf2 : cs.length < f := by simpa using hf
      subst e1
      simp [cl_print_loop, e2, load_live e2 e3, ih e4 hf2]

/-- Traversal of a well-formed list by `cl_print`. -/
theorem cl_print_list {h : Heap} {cs : List (Ptr × Ptr)} {p : Ptr} {fuel : Nat}
    (hl : ListAt h p cs) (hf : cs.length < fuel) :
    cl_print fuel h p = Except.ok (cs.map Prod.snd) := by
  unfold cl_print
  split
  · next hp =>
    cases cs with
    | nil => rfl
    | cons c cs =>
      obtain ⟨e1, e2, _⟩ := hl
      exact absurd (e1 ▸ hp) e2
  · exact cl_print_loop_list hl hf

/-- Only the empty list starts at `NULL`. -/
theorem ListAt_null {h : Heap} {cs : List (Ptr × Ptr)} (hl : ListAt h NULL cs) : cs = [] := by
  cases cs with
  | nil => rfl
  | cons c cs =>
    obtain ⟨e1, e2, _⟩ := hl
    exact absurd e1.symm e2

/-- The head of a non-empty list is not `NULL`. -/
theorem ListAt_head_ne {h : Heap} {p : Ptr} {cs : List (Ptr × Ptr)} (hl : ListAt h p cs)
    (hne : cs ≠ []) : p ≠ NULL := by
  intro hp
  subst hp
  exact hne (ListAt_null hl)

/-- Loop invariant of `cl_reverse`: the part still to visit and the part already
reversed are disjoint well-formed lists. -/
theorem cl_reverse_loop_list {rest : List (Ptr × Ptr)} :
    ∀ {h : Heap} (done : List (Ptr × Ptr)) {cur : Ptr} (prev : Ptr) {fuel : Nat},
      ListAt h cur rest → ListAt h prev done →
      (∀ a ∈ rest.map Prod.fst, a ∉ done.map Prod.fst) → rest.length < fuel →
      ∃ h2, cl_reverse_loop fuel h cur prev
            = Except.ok (h2, (rest.map Prod.fst).getLastD prev) ∧
          ListAt h2 ((rest.map Prod.fst).getLastD prev) (rest.reverse ++ done) ∧
          ∀ q, q ∉ rest.map Prod.fst → h2 q = h q := by
  induction rest with
  | nil =>
    intro h done cur prev fuel hl hd _ hf
    have hp : cur = NULL := hl
    cases fuel with
    | zero => simp at hf
    | succ f => exact ⟨h, by simp [cl_reverse_loop, hp], by simpa using hd, fun _ _ => rfl⟩
  | cons c cs ih =>
    intro h done cur prev fuel hl hd hdisj hf
    have hnd := ListAt_nodup hl
    obtain ⟨e1, e2, nx, e3, e4⟩ := hl
    simp only [List.map_cons, List.nodup_cons] at hnd
    cases fuel with
    | zero => simp at hf
    | succ f =>
      have hf2 : cs.length < f := by simpa using hf
      have hcd : c.1 ∉ done.map Prod.fst := hdisj c.1 (by simp)
      have hl1 : ListAt (write h c.1 (t_node.mk prev c.2)) nx cs :=
        Seg_congr (fun a ha => write_other h _ (fun hac => hnd.1 (hac ▸ ha))) e4
      have hd1 : ListAt (write h c.1 (t_node.mk prev c.2)) c.1 (c :: done) :=
        ⟨rfl, e2, prev, write_same _ _ _,
          Seg_congr (fun a ha => write_other h _ (fun hac => hcd (hac ▸ ha))) hd⟩
      have hdisj1 : ∀ a ∈ cs.map Prod.fst, a ∉ (c :: done).map Prod.fst := by
        intro a ha hmem
        simp only [List.map_cons, List.mem_cons] at hmem
        rcases hmem with hac | hmem
        · exact hnd.1 (hac ▸ ha)
        · exact hdisj a (by simp only [List.map_cons, List.mem_cons]; exact Or.inr ha) hmem
      obtain ⟨h2, r1, r2, r3⟩ := ih (c :: done) c.1 hl1 hd1 hdisj1 hf2
      have hg : ((c :: cs).map Prod.fst).getLastD prev = (cs.map Prod.fst).getLastD c.1 := by
        rw [List.map_cons, List.getLastD_cons]
      rw [hg]
      refine ⟨h2, ?_, ?_, ?_⟩
      · subst e1
        simp only [cl_reverse_loop, e2, if_false, load_live e2 e3, set_p_next_live prev e2 e3]
        exact r1
      · rw [List.reverse_cons, List.append_assoc]
        exact r2
      · intro q hq
        simp only [List.map_cons, List.mem_cons, not_or] at hq
        rw [r3 q hq.2, write_other h _ hq.1]

/-- What `cl_reverse` does to a well-formed list. -/
theorem cl_reverse_list {m : Mem} {cells : List (Ptr × Ptr)} {fuel : Nat}
    (hl : ListAt m.heap m.head cells) (hf : cells.length < fuel) :
    ∃ m2, cl_reverse fuel m = Except.ok m2 ∧
      m2.head = (cells.map Prod.fst).getLastD NULL ∧
      ListAt m2.heap m2.head cells.reverse ∧
      ∀ q, q ∉ cells.map Prod.fst → m2.heap q = m.heap q := by
  unfold cl_reverse
  split
  · next hp =>
    have hc : cells = [] := ListAt_null (hp ▸ hl)
    subst hc
    exact ⟨m, rfl, by simpa using hp, by simpa using hl, fun _ _ => rfl⟩
  · obtain ⟨h2, r1, r2, r3⟩ :=
      cl_reverse_loop_list [] NULL hl rfl (by simp) hf
    rw [r1]
    exact ⟨_, rfl, rfl, by simpa using r2, r3⟩

/-- The loop of `cl_push` stops at the tail node. -/
theorem cl_push_loop_last {h : Heap} {front : List (Ptr × Ptr)} {c : Ptr × Ptr} :
    ∀ {p : Ptr} {fuel : Nat}, ListAt h p (front ++ [c]) → front.length + 1 ≤ fuel →
      cl_push_loop h fuel p = Except.ok c.1 := by
  induction front with
  | nil =>
    intro p fuel hl hf
    obtain ⟨e1, e2, nx, e3, e4⟩ := hl
    have hnx : nx = NULL := e4
    subst hnx
    cases fuel with
    | zero => simp at hf
    | succ f =>
      subst e1
      simp [cl_push_loop, e2, load_live e2 e3]
  | cons d ds ih =>
    intro p fuel hl hf
    obtain ⟨e1, e2, nx, e3, e4⟩ := hl
    have hnx : nx ≠ NULL := ListAt_head_ne e4 (by simp)
    cases fuel with
    | zero => simp at hf
    | succ f =>
      have hf2 : ds.length + 1 ≤ f := by simpa using hf
      subst e1
      simp [cl_push_loop, e2, load_live e2 e3, hnx, ih e4 hf2]

/-- What `cl_push` does to a well-formed list when the allocation succeeds: the
fresh node is linked after the tail. -/
theorem cl_push_list {m : Mem} {cells : List (Ptr × Ptr)} {fuel : Nat} {a : Malloc}
    (v : Ptr) (hl : ListAt m.heap m.head cells) (hf : cells.length < fuel)
    (ha : a.ptr ≠ NULL) (hfresh : m.heap a.ptr = none) :
    ∃ m2, cl_push fuel a m v = Except.ok m2 ∧
      m2.head = (if cells = [] then a.ptr else m.head) ∧
      ListAt m2.heap m2.head (cells ++ [(a.ptr, v)]) ∧
      ∀ q, q ≠ a.ptr → q ∉ cells.map Prod.fst → m2.heap q = m.heap q := by
  have hlive := Seg_live hl
  have hnotin : a.ptr ∉ cells.map Prod.fst := fun hmem => (hlive _ hmem).2 hfresh
  have hmalloc : malloc m.heap a = (write m.heap a.ptr a.block, a.ptr) := by
    simp [malloc, ha]
  have hset : set_p_data (write m.heap a.ptr a.block) a.ptr v
      = Except.ok (write (write m.heap a.ptr a.block) a.ptr (t_node.mk a.block.p_next v)) :=
    set_p_data_live v ha (write_same _ _ _)
  obtain ⟨h1, hh1⟩ : ∃ h1, h1 = write (write m.heap a.ptr a.block) a.ptr
      (t_node.mk a.block.p_next v) := ⟨_, rfl⟩
  have h1a : h1 a.ptr = some (t_node.mk a.block.p_next v) := by rw [hh1]; exact write_same _ _ _
  have h1o : ∀ q, q ≠ a.ptr → h1 q = m.heap q := by
    intro q hq
    rw [hh1, write_other _ _ hq, write_other _ _ hq]
  have hl1 : ListAt h1 m.head cells :=
    Seg_congr (fun q hq => h1o q (fun e => hnotin (e ▸ hq))) hl
  unfold cl_push
  rw [hmalloc]
  simp only [ha, if_false, hset, ← hh1]
  rcases List.eq_nil_or_concat cells with hc | ⟨front, c, hc⟩
  · subst hc
    have hp : m.head = NULL := hl
    cases fuel with
    | zero => simp at hf
    | succ f =>
      simp only [cl_push_loop, hp, if_true, set_p_next_live NULL ha h1a]
      refine ⟨_, rfl, rfl, ⟨rfl, ha, NULL, write_same _ _ _, rfl⟩, ?_⟩
      intro q hq _
      show write h1 a.ptr _ q = m.heap q
      rw [write_other _ _ hq, h1o q hq]
  · rw [List.concat_eq_append] at hc
    subst hc
    have hnd := ListAt_nodup hl
    obtain ⟨r, s1, s2⟩ := (Seg_append h1 front [c] m.head NULL).mp hl1
    obtain ⟨e1, e2, nx, e3, e4⟩ := s2
    have hnx : nx = NULL := e4
    subst hnx
    subst e1
    have hloop : cl_push_loop h1 fuel m.head = Except.ok c.1 :=
      cl_push_loop_last hl1 (by simp at hf; omega)
    have hca : c.1 ≠ a.ptr := fun e => hnotin (by simp [← e])
    have hcf : c.1 ∉ front.map Prod.fst := by
      intro hmem
      rw [List.map_append, List.nodup_append] at hnd
      exact hnd.2.2 hmem (by simp)
    rw [hloop]
    simp only [e2, if_false, set_p_next_live a.ptr e2 e3]
    have h2a : write h1 c.1 (t_node.mk a.ptr c.2) a.ptr = some (t_node.mk a.block.p_next v) := by
      rw [write_other _ _ (Ne.symm hca), h1a]
    simp only [set_p_next_live NULL ha h2a]
    refine ⟨_, rfl, by simp, ?_, ?_⟩
    · show ListAt (write (write h1 c.1 (t_node.mk a.ptr c.2)) a.ptr (t_node.mk NULL v)) m.head
        (front ++ [c] ++ [(a.ptr, v)])
      rw [List.append_assoc]
      refine (Seg_append _ front _ m.head NULL).mpr ⟨c.1, ?_, ?_⟩
      · refine Seg_congr (fun q hq => ?_) s1
        have hq1 : q ≠ a.ptr := fun e => hnotin (by simp [← e, hq])
        have hq2 : q ≠ c.1 := fun e => hcf (e ▸ hq)
        rw [write_other _ _ hq1, write_other _ _ hq2]
      · refine ⟨rfl, e2, a.ptr, ?_, rfl, ha, NULL, write_same _ _ _, rfl⟩
        rw [write_other _ _ hca, write_same]
    · intro q hq hqc
      show write (write h1 c.1 (t_node.mk a.ptr c.2)) a.ptr (t_node.mk NULL v) q = m.heap q
      have hq2 : q ≠ c.1 := fun e => hqc (by simp [e])
      rw [write_other _ _ hq, write_other _ _ hq2, h1o q hq]

/-- The loop of `cl_pop` stops at the tail node, with `p_previous` at its
predecessor (or unchanged when the tail is the first node visited). -/
theorem cl_pop_loop_last {h : Heap} {front : List (Ptr × Ptr)} {c : Ptr × Ptr} :
    ∀ {p : Ptr} (prev : Ptr) {fuel : Nat}, ListAt h p (front ++ [c]) →
      front.length + 1 ≤ fuel →
      cl_pop_loop h fuel p prev = Except.ok (c.1, (front.map Prod.fst).getLastD prev) := by
  induction front with
  | nil =>
    intro p prev fuel hl hf
    obtain ⟨e1, e2, nx, e3, e4⟩ := hl
    have hnx : nx = NULL := e4
    subst hnx
    cases fuel with
    | zero => simp at hf
    | succ f =>
      subst e1
      simp [cl_pop_loop, load_live e2 e3]
  | cons d ds ih =>
    intro p prev fuel hl hf
    obtain ⟨e1, e2, nx, e3, e4⟩ := hl
    have hnx : nx ≠ NULL := ListAt_head_ne e4 (by simp)
    cases fuel with
    | zero => simp at hf
    | succ f =>
      have hf2 : ds.length + 1 ≤ f := by simpa using hf
      subst e1
      rw [List.map_cons, List.getLastD_cons]
      simp only [cl_pop_loop, load_live e2 e3, hnx, if_false]
      exact ih d.1 e4 hf2

/-- Unlinking the node `c` that follows the last node of `front ++ [b]`: after
`b.p_next` is redirected to `nx` and `c` is released, the segment up to `b` ends in
`nx`. -/
theorem Seg_unlink {h : Heap} {front : List (Ptr × Ptr)} {b c : Ptr × Ptr} {p nx : Ptr}
    (hs : Seg h p (front ++ [b]) c.1)
    (hbf : b.1 ∉ front.map Prod.fst) (hcf : c.1 ∉ front.map Prod.fst) (hcb : c.1 ≠ b.1) :
    Seg (fun q => if q = c.1 then none else write h b.1 (t_node.mk nx b.2) q) p
      (front ++ [b]) nx := by
  obtain ⟨r, s1, e1, e2, ny, e3, _⟩ := (Seg_append h front [b] p c.1).mp hs
  refine (Seg_append _ front [b] p nx).mpr ⟨r, ?_, e1, e2, nx, ?_, rfl⟩
  · refine Seg_congr (fun q hq => ?_) s1
    have hq1 : q ≠ c.1 := fun e => hcf (e ▸ hq)
    have hq2 : q ≠ b.1 := fun e => hbf (e ▸ hq)
    simp only [hq1, if_false]
    exact write_other _ _ hq2
  · simp only [Ne.symm hcb, if_false]
    exact write_same _ _ _

/-- What `cl_pop` does to a well-formed list of at least two nodes: the tail is
unlinked and released and its payload returned. -/
theorem cl_pop_list {m : Mem} {front : List (Ptr × Ptr)} {b c : Ptr × Ptr} {fuel : Nat}
    (hl : ListAt m.heap m.head (front ++ [b] ++ [c])) (hf : front.length + 2 ≤ fuel) :
    ∃ h2, cl_pop fuel m = Except.ok (c.2, Mem.mk h2 m.head) ∧
      ListAt h2 m.head (front ++ [b]) ∧ h2 c.1 = none ∧
      ∀ q, q ≠ c.1 → q ≠ b.1 → h2 q = m.heap q := by
  have hnd := ListAt_nodup hl
  have hhead : m.head ≠ NULL := ListAt_head_ne hl (by simp)
  have hloop : cl_pop_loop m.heap fuel m.head NULL = Except.ok (c.1, b.1) := by
    have hlen : (front ++ [b]).length + 1 ≤ fuel := by simp; omega
    rw [cl_pop_loop_last NULL hl hlen, List.map_append, List.map_cons, List.map_nil,
      List.getLastD_concat]
  obtain ⟨r, s1, e1, e2, nx, e3, e4⟩ := (Seg_append m.heap (front ++ [b]) [c] m.head NULL).mp hl
  have hnx : nx = NULL := e4
  subst hnx
  subst e1
  obtain ⟨r2, _, f1, f2, ny, f3, _⟩ := (Seg_append m.heap front [b] m.head c.1).mp s1
  simp only [List.map_append, List.map_cons, List.map_nil, List.nodup_append,
    List.nodup_cons, List.not_mem_nil, not_false_eq_true, List.nodup_nil, and_true,
    List.Disjoint, List.mem_append, List.mem_singleton, true_and] at hnd
  have hbf : b.1 ∉ front.map Prod.fst := fun hmem => hnd.1.2 hmem rfl
  have hcf : c.1 ∉ front.map Prod.fst := fun hmem => hnd.2 (Or.inl hmem) rfl
  have hcb : c.1 ≠ b.1 := fun e => hnd.2 (Or.inr rfl) e.symm
  have hfree : free (write m.heap b.1 (t_node.mk NULL b.2)) c.1
      = Except.ok (fun q => if q = c.1 then none
          else write m.heap b.1 (t_node.mk NULL b.2) q) :=
    free_live e2 (by rw [write_other _ _ hcb]; exact e3)
  unfold cl_pop
  simp only [hhead, if_false, hloop, load_live e2 e3, ne_eq, f2, not_false_eq_true, if_true,
    set_p_next_live NULL f2 f3, hfree]
  refine ⟨_, rfl, Seg_unlink s1 hbf hcf hcb, by simp, ?_⟩
  intro q hq1 hq2
  simp only [hq1, if_false]
  exact write_other _ _ hq2

/-- No wrap-around inside the range of `int`. -/
theorem wrap_int_of_range {x : Int} (h1 : INT_MIN ≤ x) (h2 : x ≤ INT_MAX) : wrap_int x = x := by
  unfold INT_MIN at h1
  unfold INT_MAX at h2
  unfold wrap_int
  omega

/-- The counting loop walks over `front` when the index is its length: it stops at the
node that follows, with `p_previous` at the last node of `front`. -/
theorem cl_index_loop_at {h : Heap} (index : Int) {q : Ptr} {front : List (Ptr × Ptr)} :
    ∀ {p : Ptr} (prev : Ptr) (c : Int) {fuel : Nat}, Seg h p front q → 0 ≤ c →
      c + front.length = index → index ≤ INT_MAX → front.length + 1 ≤ fuel →
      cl_index_loop h index fuel p prev c
        = Except.ok (q, (front.map Prod.fst).getLastD prev) := by
  induction front with
  | nil =>
    intro p prev c fuel hs _ hc _ hf
    have hp : p = q := hs
    subst hp
    have hci : ¬ c < index := by simp at hc; omega
    cases fuel with
    | zero => simp at hf
    | succ f =>
      by_cases hn : p = NULL
      · simp [cl_index_loop, hn]
      · simp [cl_index_loop, hn, hci]
  | cons d ds ih =>
    intro p prev c fuel hs h0 hc hmax hf
    obtain ⟨e1, e2, nx, e3, e4⟩ := hs
    simp only [List.length_cons, Nat.cast_add, Nat.cast_one] at hc
    have hci : c < index := by omega
    have hw : wrap_int (c + 1) = c + 1 :=
      wrap_int_of_range (by unfold INT_MIN; omega) (by omega)
    cases fuel with
    | zero => simp at hf
    | succ f =>
      have hf2 : ds.length + 1 ≤ f := by simpa using hf
      subst e1
      rw [List.map_cons, List.getLastD_cons]
      simp only [cl_index_loop, e2, if_false, hci, if_true, load_live e2 e3, hw]
      exact ih d.1 (c + 1) e4 (by omega) (by omega) hmax hf2

/-- The counting loop runs off the end of the list when the index is at least the
length. -/
theorem cl_index_loop_end {h : Heap} (index : Int) {cells : List (Ptr × Ptr)} :
    ∀ {p : Ptr} (prev : Ptr) (c : Int) {fuel : Nat}, ListAt h p cells → 0 ≤ c →
      c + cells.length ≤ index → index ≤ INT_MAX → cells.length + 1 ≤ fuel →
      cl_index_loop h index fuel p prev c
        = Except.ok (NULL, (cells.map Prod.fst).getLastD prev) := by
  induction cells with
  | nil =>
    intro p prev c fuel hs _ _ _ hf
    have hp : p = NULL := hs
    cases fuel with
    | zero => simp at hf
    | succ f => simp [cl_index_loop, hp]
  | cons d ds ih =>
    intro p prev c fuel hs h0 hc hmax hf
    obtain ⟨e1, e2, nx, e3, e4⟩ := hs
    simp only [List.length_cons, Nat.cast_add, Nat.cast_one] at hc
    have hci : c < index := by omega
    have hw : wrap_int (c + 1) = c + 1 :=
      wrap_int_of_range (by unfold INT_MIN; omega) (by omega)
    cases fuel with
    | zero => simp at hf
    | succ f =>
      have hf2 : ds.length + 1 ≤ f := by simpa using hf
      subst e1
      rw [List.map_cons, List.getLastD_cons]
      simp only [cl_index_loop, e2, if_false, hci, if_true, load_live e2 e3, hw]
      exact ih d.1 (c + 1) e4 (by omega) (by omega) hmax hf2

/-- The counting loop does not advance when the index is not above the counter. -/
theorem cl_index_loop_stop (h : Heap) {index c : Int} (p prev : Ptr) {fuel : Nat}
    (hc : index ≤ c) (hf : 1 ≤ fuel) :
    cl_index_loop h index fuel p prev c = Except.ok (p, prev) := by
  have hci : ¬ c < index := by omega
  cases fuel with
  | zero => simp at hf
  | succ f =>
    by_cases hn : p = NULL
    · simp [cl_index_loop, hn]
    · simp [cl_index_loop, hn, hci]

/-- Distinctness facts for a node `c`, its predecessor `b` and the rest of the list. -/
theorem nodup_around {f back : List Ptr} {b c : Ptr} (h : (f ++ [b] ++ c :: back).Nodup) :
    b ∉ f ∧ c ∉ f ∧ c ≠ b ∧ c ∉ back ∧ b ∉ back := by
  simp only [List.nodup_append, List.nodup_cons, List.Disjoint, List.mem_append,
    List.mem_cons, List.mem_singleton, List.not_mem_nil, or_false, List.nodup_nil,
    not_false_eq_true, and_true, true_and] at h
  obtain ⟨⟨_, h2⟩, ⟨h3, _⟩, h5⟩ := h
  refine ⟨fun hm => h2 hm rfl, fun hm => h5 (Or.inl hm) (Or.inl rfl),
    fun e => h5 (Or.inr rfl) (Or.inl e.symm), h3, fun hm => h5 (Or.inr rfl) (Or.inr hm)⟩

/-- The relinking step shared by `cl_delete_by_index` and `cl_delete_by_value`: with
`p_current` at the node `c` and `p_previous` at its predecessor (or `NULL` when `c` is
the head), the head or the predecessor is redirected to the successor of `c` and `c`
is released; what remains is the list without `c`. -/
theorem unlink_list {h : Heap} {head : Ptr} {front back : List (Ptr × Ptr)} {c : Ptr × Ptr}
    (hl : ListAt h head (front ++ c :: back)) :
    ∃ nx h1 head1 h2, c.1 ≠ NULL ∧ h c.1 = some (t_node.mk nx c.2) ∧
      (((front.map Prod.fst).getLastD NULL = NULL ∧ h1 = h ∧ head1 = nx) ∨
        ((front.map Prod.fst).getLastD NULL ≠ NULL ∧
          set_p_next h ((front.map Prod.fst).getLastD NULL) nx = Except.ok h1 ∧
          head1 = head)) ∧
      free h1 c.1 = Except.ok h2 ∧
      ListAt h2 head1 (front ++ back) ∧
      head1 = (if front = [] then (back.map Prod.fst).headD NULL else head) ∧
      h2 c.1 = none ∧
      ∀ q, q ≠ c.1 → q ≠ (front.map Prod.fst).getLastD NULL → h2 q = h q := by
  have hnd := ListAt_nodup hl
  obtain ⟨r, s1, e1, e2, nx, e3, e4⟩ := (Seg_append h front (c :: back) head NULL).mp hl
  subst e1
  have hnx : nx = (back.map Prod.fst).headD NULL := by
    cases back with
    | nil => exact e4
    | cons d ds => exact e4.1
  rcases List.eq_nil_or_concat front with hfr | ⟨f, b, hfr⟩
  · subst hfr
    have hcb : c.1 ∉ back.map Prod.fst := by
      intro hmem
      simp only [List.nil_append, List.map_cons, List.nodup_cons] at hnd
      exact hnd.1 hmem
    refine ⟨nx, h, nx, fun q => if q = c.1 then none else h q, e2, e3,
      Or.inl ⟨rfl, rfl, rfl⟩, free_live e2 e3, ?_, by simp [hnx], by simp, ?_⟩
    · refine Seg_congr (fun q hq => ?_) e4
      have hq1 : q ≠ c.1 := fun e => hcb (e ▸ hq)
      simp [hq1]
    · intro q hq _
      simp [hq]
  · rw [List.concat_eq_append] at hfr
    subst hfr
    obtain ⟨r2, _, f1, f2, ny, f3, f4⟩ := (Seg_append h f [b] head c.1).mp s1
    have hny : ny = c.1 := f4
    subst hny
    simp only [List.map_append, List.map_cons, List.map_nil] at hnd
    obtain ⟨hbf, hcf, hcb2, hcb, hbb⟩ := nodup_around hnd
    have hlast : ((f ++ [b]).map Prod.fst).getLastD NULL = b.1 := by
      rw [List.map_append, List.map_cons, List.map_nil, List.getLastD_concat]
    rw [hlast]
    refine ⟨nx, write h b.1 (t_node.mk nx b.2), head,
      fun q => if q = c.1 then none else write h b.1 (t_node.mk nx b.2) q, e2, e3,
      Or.inr ⟨f2, set_p_next_live nx f2 f3, rfl⟩,
      free_live e2 (by rw [write_other _ _ hcb2]; exact e3), ?_, by simp, by simp, ?_⟩
    · refine (Seg_append _ (f ++ [b]) back head NULL).mpr ⟨nx, Seg_unlink s1 hbf hcf hcb2, ?_⟩
      refine Seg_congr (fun q hq => ?_) e4
      have hq1 : q ≠ c.1 := fun e => hcb (e ▸ hq)
      have hq2 : q ≠ b.1 := fun e => hbb (e ▸ hq)
      simp only [hq1, if_false]
      exact write_other _ _ hq2
    · intro q hq1 hq2
      simp only [hq1, if_false]
      exact write_other _ _ hq2

/-- What `cl_delete_by_index` does at an index inside a well-formed list: the node at
that position is unlinked and released and its payload returned. -/
theorem cl_delete_by_index_list {m : Mem} {front back : List (Ptr × Ptr)} {c : Ptr × Ptr}
    {fuel : Nat} {index : Int}
    (hl : ListAt m.heap m.head (front ++ c :: back)) (hi : index = front.length)
    (hmax : index ≤ INT_MAX) (hf : front.length + 1 ≤ fuel) :
    ∃ m2, cl_delete_by_index fuel m index = Except.ok (c.2, m2) ∧
      ListAt m2.heap m2.head (front ++ back) ∧
      m2.head = (if front = [] then (back.map Prod.fst).headD NULL else m.head) ∧
      m2.heap c.1 = none := by
  have hhead : m.head ≠ NULL := ListAt_head_ne hl (by simp)
  obtain ⟨r, s1, s2⟩ := (Seg_append m.heap front (c :: back) m.head NULL).mp hl
  have hr : r = c.1 := s2.1
  subst hr
  have hloop := cl_index_loop_at index NULL 0 s1 (le_refl 0) (by omega) hmax hf
  obtain ⟨nx, h1, head1, h2, u1, u2, u3, u4, u5, u6, u7, _⟩ := unlink_list hl
  unfold cl_delete_by_index
  rcases u3 with ⟨v1, v2, v3⟩ | ⟨v1, v2, v3⟩
  · subst v2
    simp only [hhead, if_false, hloop, u1, load_live u1 u2, v1, if_true, u4]
    exact ⟨_, rfl, v3 ▸ u5, v3 ▸ u6, u7⟩
  · simp only [hhead, if_false, hloop, u1, load_live u1 u2, v1, v2, u4]
    exact ⟨_, rfl, v3 ▸ u5, v3 ▸ u6, u7⟩

/-- At an index at or beyond the length of a well-formed list that is non-empty (or at
index 0), `cl_insert_value_at_index` hands over to `cl_push`. -/
theorem cl_insert_end_eq_push {m : Mem} {cells : List (Ptr × Ptr)} {fuel : Nat} {index : Int}
    (a : Malloc) (v : Ptr) (hl : ListAt m.heap m.head cells) (hi : (cells.length : Int) ≤ index)
    (hmax : index ≤ INT_MAX) (hne : cells ≠ [] ∨ index = 0) (hf : cells.length + 1 ≤ fuel) :
    cl_insert_value_at_index fuel a m v index = cl_push fuel a m v := by
  have hguard : ¬ (m.head = NULL ∧ index ≠ 0) := by
    rintro ⟨g1, g2⟩
    rcases hne with hc | hz
    · exact ListAt_head_ne hl hc g1
    · exact g2 hz
  have hloop := cl_index_loop_end index NULL 0 hl (le_refl 0) (by omega) hmax hf
  unfold cl_insert_value_at_index
  simp only [hguard, if_false, hloop, if_true]

/-- What `cl_insert_value_at_index` does at an index inside a well-formed list when the
allocation succeeds: the fresh node is spliced in before the node at that index. -/
theorem cl_insert_at_list {m : Mem} {front back : List (Ptr × Ptr)} {c : Ptr × Ptr}
    {fuel : Nat} {index : Int} {a : Malloc} (v : Ptr)
    (hl : ListAt m.heap m.head (front ++ c :: back)) (hi : index = front.length)
    (hmax : index ≤ INT_MAX) (hf : front.length + 1 ≤ fuel)
    (ha : a.ptr ≠ NULL) (hfresh : m.heap a.ptr = none) :
    ∃ m2, cl_insert_value_at_index fuel a m v index = Except.ok m2 ∧
      ListAt m2.heap m2.head (front ++ (a.ptr, v) :: c :: back) ∧
      m2.head = (if front = [] then a.ptr else m.head) ∧
      ∀ q, q ≠ a.ptr → q ≠ (front.map Prod.fst).getLastD NULL → m2.heap q = m.heap q := by
  have hhead : m.head ≠ NULL := ListAt_head_ne hl (by simp)
  have hguard : ¬ (m.head = NULL ∧ index ≠ 0) := fun g => hhead g.1
  have hnd := ListAt_nodup hl
  have hlive := Seg_live hl
  have hnotin : a.ptr ∉ (front ++ c :: back).map Prod.fst := fun hmem => (hlive _ hmem).2 hfresh
  obtain ⟨r, s1, s2⟩ := (Seg_append m.heap front (c :: back) m.head NULL).mp hl
  have hr : r = c.1 := s2.1
  subst hr
  have hc : c.1 ≠ NULL := s2.2.1
  have hloop := cl_index_loop_at index NULL 0 s1 (le_refl 0) (by omega) hmax hf
  have hmalloc : malloc m.heap a = (write m.heap a.ptr a.block, a.ptr) := by
    simp [malloc, ha]
  unfold cl_insert_value_at_index
  simp only [hguard, if_false, hloop, hc, hmalloc, ha]
  rcases List.eq_nil_or_concat front with hfr | ⟨f, b, hfr⟩
  · subst hfr
    have h1a : write m.heap a.ptr a.block a.ptr = some a.block := write_same _ _ _
    have h2a : write (write m.heap a.ptr a.block) a.ptr (t_node.mk c.1 a.block.p_data) a.ptr
        = some (t_node.mk c.1 a.block.p_data) := write_same _ _ _
    simp only [List.map_nil, List.getLastD_nil, ne_eq, not_true_eq_false, if_false,
      set_p_next_live c.1 ha h1a, set_p_data_live v ha h2a]
    refine ⟨_, rfl, ?_, by simp, ?_⟩
    · refine ⟨rfl, ha, c.1, write_same _ _ _, Seg_congr (fun q hq => ?_) s2⟩
      have hq : q ≠ a.ptr := fun e => hnotin (by simpa [e] using hq)
      show write (write (write m.heap a.ptr a.block) a.ptr _) a.ptr _ q = m.heap q
      rw [write_other _ _ hq, write_other _ _ hq, write_other _ _ hq]
    · intro q hq _
      show write (write (write m.heap a.ptr a.block) a.ptr _) a.ptr _ q = m.heap q
      rw [write_other _ _ hq, write_other _ _ hq, write_other _ _ hq]
  · rw [List.concat_eq_append] at hfr
    subst hfr
    obtain ⟨r2, t1, f1, f2, ny, f3, f4⟩ := (Seg_append m.heap f [b] m.head c.1).mp s1
    have hny : ny = c.1 := f4
    subst hny
    subst f1
    simp only [List.map_append, List.map_cons, List.map_nil] at hnd hnotin
    obtain ⟨hbf, hcf, hcb2, hcb, hbb⟩ := nodup_around hnd
    have hlast : ((f ++ [b]).map Prod.fst).getLastD NULL = b.1 := by
      rw [List.map_append, List.map_cons, List.map_nil, List.getLastD_concat]
    have hba : b.1 ≠ a.ptr := fun e => hnotin (by simp [← e])
    have h0b : write m.heap a.ptr a.block b.1 = some (t_node.mk c.1 b.2) := by
      rw [write_other _ _ hba]; exact f3
    have h1a : write (write m.heap a.ptr a.block) b.1 (t_node.mk a.ptr b.2) a.ptr
        = some a.block := by
      rw [write_other _ _ (Ne.symm hba)]; exact write_same _ _ _
    have h2a : write (write (write m.heap a.ptr a.block) b.1 (t_node.mk a.ptr b.2)) a.ptr
        (t_node.mk c.1 a.block.p_data) a.ptr = some (t_node.mk c.1 a.block.p_data) :=
      write_same _ _ _
    rw [hlast]
    simp only [ne_eq, f2, not_false_eq_true, if_true, set_p_next_live a.ptr f2 h0b,
      set_p_next_live c.1 ha h1a, set_p_data_live v ha h2a]
    have hframe : ∀ q, q ≠ a.ptr → q ≠ b.1 →
        write (write (write (write m.heap a.ptr a.block) b.1 (t_node.mk a.ptr b.2)) a.ptr
          (t_node.mk c.1 a.block.p_data)) a.ptr (t_node.mk c.1 v) q = m.heap q := by
      intro q hq1 hq2
      rw [write_other _ _ hq1, write_other _ _ hq1, write_other _ _ hq2, write_other _ _ hq1]
    refine ⟨_, rfl, ?_, by simp, hframe⟩
    · show Seg _ m.head (f ++ [b] ++ (a.ptr, v) :: c :: back) NULL
      rw [List.append_assoc]
      refine (Seg_append _ f _ m.head NULL).mpr ⟨b.1, Seg_congr (fun q hq => ?_) t1, ?_⟩
      · exact hframe q (fun e => hnotin (by simp [← e, hq])) (fun e => hbf (e ▸ hq))
      · refine ⟨rfl, f2, a.ptr, ?_, rfl, ha, c.1, write_same _ _ _,
          Seg_congr (fun q hq => ?_) s2⟩
        · show write (write (write (write m.heap a.ptr a.block) b.1 (t_node.mk a.ptr b.2)) a.ptr
            (t_node.mk c.1 a.block.p_data)) a.ptr (t_node.mk c.1 v) b.1 = _
          rw [write_other _ _ hba, write_other _ _ hba, write_same]
        · simp only [List.map_cons, List.mem_cons] at hq
          refine hframe q (fun e => hnotin (e ▸ List.mem_append.mpr
            (Or.inr (List.mem_cons.mpr hq)))) (fun e => ?_)
          rcases hq with hq | hq
          · exact hcb2 (hq ▸ e)
          · exact hbb (e ▸ hq)

/-- Appending by repeated `cl_push` to a well-formed list. -/
theorem cl_push_all_list (fuel : Nat) {calls : List (Malloc × Ptr)} :
    ∀ {m : Mem} (cells : List (Ptr × Ptr)), ListAt m.heap m.head cells →
      (∀ c ∈ calls, c.1.ptr ≠ NULL) → (∀ c ∈ calls, m.heap c.1.ptr = none) →
      (calls.map (fun c => c.1.ptr)).Nodup → cells.length + calls.length ≤ fuel →
      ∃ m2, cl_push_all fuel calls m = Except.ok m2 ∧
        ListAt m2.heap m2.head (cells ++ calls.map (fun c => (c.1.ptr, c.2))) := by
  induction calls with
  | nil =>
    intro m cells hl _ _ _ _
    exact ⟨m, rfl, by simpa using hl⟩
  | cons c rest ih =>
    intro m cells hl hnull hfresh hnd hf
    simp only [List.length_cons] at hf
    simp only [List.map_cons, List.nodup_cons] at hnd
    have hlt : cells.length < fuel := by omega
    obtain ⟨m1, p1, _, p3, p4⟩ :=
      cl_push_list c.2 hl hlt (hnull c (by simp)) (hfresh c (by simp))
    have hlive := Seg_live hl
    have hfresh1 : ∀ d ∈ rest, m1.heap d.1.ptr = none := by
      intro d hd
      have hd0 : m.heap d.1.ptr = none := hfresh d (by simp [hd])
      rw [p4 d.1.ptr (fun e => hnd.1 (List.mem_map.mpr ⟨d, hd, e⟩))
        (fun hmem => (hlive _ hmem).2 hd0)]
      exact hd0
    have hlen : (cells ++ [(c.1.ptr, c.2)]).length + rest.length ≤ fuel := by simp; omega
    obtain ⟨m2, q1, q2⟩ := ih (cells ++ [(c.1.ptr, c.2)]) p3
      (fun d hd => hnull d (by simp [hd])) hfresh1 hnd.2 hlen
    refine ⟨m2, ?_, by simpa using q2⟩
    simp only [cl_push_all, p1]
    exact q1

/-- A well-formed list splits at any position inside it. -/
theorem split_at_index {cells : List (Ptr × Ptr)} {k : Nat} (hk : k < cells.length) :
    ∃ c back, cells = cells.take k ++ c :: back ∧ cells.drop k = c :: back ∧
      (cells.take k).length = k ∧ (cells.map Prod.snd)[k]? = some c.2 ∧
      cells.drop (k + 1) = back := by
  have hd : cells.drop k ≠ [] := by
    intro e
    have := congrArg List.length e
    simp at this
    omega
  obtain ⟨c, back, hcb⟩ := List.exists_cons_of_ne_nil hd
  have hsplit : cells = cells.take k ++ c :: back := by
    rw [← hcb, List.take_append_drop]
  refine ⟨c, back, hsplit, hcb, by simp; omega, ?_, ?_⟩
  · have h1 : cells[k]? = (cells.drop k)[0]? := by simp
    rw [List.getElem?_map, h1, hcb]
    simp
  · have h2 : cells.drop (k + 1) = (cells.drop k).drop 1 := by simp [List.drop_drop]
    rw [h2, hcb]
    rfl

/-- The counting loop terminates on a well-formed list, whatever the index. -/
theorem cl_index_loop_terminates {h : Heap} (index : Int) {cells : List (Ptr × Ptr)} :
    ∀ {p : Ptr} (prev : Ptr) (c : Int) {fuel : Nat}, ListAt h p cells →
      cells.length + 1 ≤ fuel →
      ∃ q r, cl_index_loop h index fuel p prev c = Except.ok (q, r) := by
  induction cells with
  | nil =>
    intro p prev c fuel hs hf
    have hp : p = NULL := hs
    cases fuel with
    | zero => simp at hf
    | succ f => exact ⟨p, prev, by simp [cl_index_loop, hp]⟩
  | cons d ds ih =>
    intro p prev c fuel hs hf
    obtain ⟨e1, e2, nx, e3, e4⟩ := hs
    cases fuel with
    | zero => simp at hf
    | succ f =>
      have hf2 : ds.length + 1 ≤ f := by simpa using hf
      subst e1
      by_cases hci : c < index
      · obtain ⟨q, r, hqr⟩ := ih d.1 (wrap_int (c + 1)) e4 hf2
        exact ⟨q, r, by simp only [cl_index_loop, e2, if_false, hci, if_true, load_live e2 e3, hqr]⟩
      · exact ⟨d.1, prev, by simp only [cl_index_loop, e2, if_false, hci]⟩

/-- The scan of `cl_delete_by_value` walks over the nodes the comparator rejects
(nonzero result) and stops at the end of the list or at the first node the comparator
accepts. -/
theorem cl_delete_by_value_loop_at {h : Heap} {target : Int} {compare : Ptr → Int → Int}
    {q : Ptr} {front : List (Ptr × Ptr)} :
    ∀ {p : Ptr} (prev : Ptr) {fuel : Nat}, Seg h p front q →
      (∀ f ∈ front, compare f.2 target ≠ 0) →
      (q = NULL ∨ ∃ n, h q = some n ∧ compare n.p_data target = 0) →
      front.length + 1 ≤ fuel →
      cl_delete_by_value_loop h target compare fuel p prev
        = Except.ok (q, (front.map Prod.fst).getLastD prev) := by
  induction front with
  | nil =>
    intro p prev fuel hs _ hq hf
    have hp : p = q := hs
    subst hp
    cases fuel with
    | zero => simp at hf
    | succ f =>
      by_cases hn : p = NULL
      · simp [cl_delete_by_value_loop, hn]
      · rcases hq with hq | ⟨n, hn1, hn2⟩
        · exact absurd hq hn
        · simp [cl_delete_by_value_loop, hn, load_live hn hn1, hn2]
  | cons d ds ih =>
    intro p prev fuel hs hrej hq hf
    obtain ⟨e1, e2, nx, e3, e4⟩ := hs
    have hd : compare d.2 target ≠ 0 := hrej d (by simp)
    cases fuel with
    | zero => simp at hf
    | succ f =>
      have hf2 : ds.length + 1 ≤ f := by simpa using hf
      subst e1
      rw [List.map_cons, List.getLastD_cons]
      simp only [cl_delete_by_value_loop, e2, if_false, load_live e2 e3, ne_eq, hd,
        not_false_eq_true, if_true]
      exact ih d.1 e4 (fun f hf => hrej f (by simp [hf])) hq hf2

/-- What `cl_delete_by_value` does when the comparator accepts the node `c` and
rejects every node before it: `c` is unlinked and released. -/
theorem cl_delete_by_value_list {m : Mem} {front back : List (Ptr × Ptr)} {c : Ptr × Ptr}
    {fuel : Nat} {target : Int} {compare : Ptr → Int → Int}
    (hl : ListAt m.heap m.head (front ++ c :: back))
    (hrej : ∀ f ∈ front, compare f.2 target ≠ 0) (hacc : compare c.2 target = 0)
    (hf : front.length + 1 ≤ fuel) :
    ∃ m2, cl_delete_by_value fuel m target compare = Except.ok m2 ∧
      ListAt m2.heap m2.head (front ++ back) ∧
      m2.head = (if front = [] then (back.map Prod.fst).headD NULL else m.head) ∧
      m2.heap c.1 = none := by
  have hhead : m.head ≠ NULL := ListAt_head_ne hl (by simp)
  obtain ⟨r, s1, s2⟩ := (Seg_append m.heap front (c :: back) m.head NULL).mp hl
  have hr : r = c.1 := s2.1
  subst hr
  obtain ⟨nx, h1, head1, h2, u1, u2, u3, u4, u5, u6, u7, _⟩ := unlink_list hl
  have hloop := cl_delete_by_value_loop_at NULL s1 hrej (Or.inr ⟨_, u2, hacc⟩) hf
  unfold cl_delete_by_value
  rcases u3 with ⟨v1, v2, v3⟩ | ⟨v1, v2, v3⟩
  · subst v2
    simp only [hhead, if_false, hloop, u1, load_live u1 u2, v1, if_true, u4]
    exact ⟨_, rfl, v3 ▸ u5, v3 ▸ u6, u7⟩
  · simp only [hhead, if_false, hloop, u1, load_live u1 u2, v1, v2, u4]
    exact ⟨_, rfl, v3 ▸ u5, v3 ▸ u6, u7⟩

/-- What `cl_delete_by_value` does when the comparator rejects every node: nothing. -/
theorem cl_delete_by_value_none {m : Mem} {cells : List (Ptr × Ptr)} {fuel : Nat}
    {target : Int} {compare : Ptr → Int → Int} (hl : ListAt m.heap m.head cells)
    (hrej : ∀ f ∈ cells, compare f.2 target ≠ 0) (hf : cells.length + 1 ≤ fuel) :
    cl_delete_by_value fuel m target compare = Except.ok m := by
  have hloop := cl_delete_by_value_loop_at NULL hl hrej (Or.inl rfl) hf
  unfold cl_delete_by_value
  split
  · rfl
  · simp only [hloop, if_true]

/-- The first element of a list that satisfies a predicate splits the list. -/
theorem split_at_first {α : Type} (P : α → Prop) [DecidablePred P] {l : List α}
    (hex : ∃ x ∈ l, P x) :
    ∃ front c back, l = front ++ c :: back ∧ (∀ f ∈ front, ¬ P f) ∧ P c := by
  induction l with
  | nil => simp at hex
  | cons d ds ih =>
    by_cases hd : P d
    · exact ⟨[], d, ds, rfl, by simp, hd⟩
    · have hex2 : ∃ x ∈ ds, P x := by
        obtain ⟨x, hx, hpx⟩ := hex
        simp only [List.mem_cons] at hx
        rcases hx with rfl | hx
        · exact absurd hpx hd
        · exact ⟨x, hx, hpx⟩
      obtain ⟨front, c, back, h1, h2, h3⟩ := ih hex2
      refine ⟨d :: front, c, back, by rw [h1]; rfl, ?_, h3⟩
      intro f hf
      simp only [List.mem_cons] at hf
      rcases hf with rfl | hf
      · exact hd
      · exact h2 f hf

/-- A dangling head is not the head of a well-formed list. -/
theorem not_ListAt_of_released {h : Heap} {p : Ptr} (hp : p ≠ NULL) (hn : h p = none)
    (cells : List (Ptr × Ptr)) : ¬ ListAt h p cells := by
  intro hl
  cases cells with
  | nil => exact hp hl
  | cons c cs =>
    obtain ⟨e1, _, nx, e3, _⟩ := hl
    rw [← e1, hn] at e3
    exact Option.noConfusion e3

/-- The position computed by `first_match` when the comparator rejects `front` and
accepts the payload after it. -/
theorem first_match_at {compare : Ptr → Int → Int} {target : Int} {front back : List Ptr}
    {v : Ptr} (hrej : ∀ f ∈ front, compare f target ≠ 0) (hacc : compare v target = 0) :
    first_match compare target (front ++ v :: back) = front.length := by
  induction front with
  | nil => simp [first_match, hacc]
  | cons d ds ih =>
    have hd : compare d target ≠ 0 := hrej d (by simp)
    simp [first_match, hd, ih (fun f hf => hrej f (by simp [hf]))]

/-- The position computed by `first_match` when the comparator rejects every
payload. -/
theorem first_match_none {compare : Ptr → Int → Int} {target : Int} {vals : List Ptr}
    (hrej : ∀ f ∈ vals, compare f target ≠ 0) :
    first_match compare target vals = vals.length := by
  induction vals with
  | nil => rfl
  | cons d ds ih =>
    have hd : compare d target ≠ 0 := hrej d (by simp)
    simp [first_match, hd, ih (fun f hf => hrej f (by simp [hf]))]

/-- On a non-empty list an index that is not positive makes
`cl_insert_value_at_index` run exactly as for index 0. -/
theorem cl_insert_nonpos_eq_zero {m : Mem} {fuel : Nat} {k : Int} (a : Malloc) (x : Ptr)
    (hhead : m.head ≠ NULL) (hk : k ≤ 0) (hf : 1 ≤ fuel) :
    cl_insert_value_at_index fuel a m x k = cl_insert_value_at_index fuel a m x 0 := by
  have h1 := cl_index_loop_stop m.heap m.head NULL hk hf
  have h2 := cl_index_loop_stop m.heap m.head NULL (le_refl (0 : Int)) hf
  unfold cl_insert_value_at_index
  simp only [hhead, false_and, if_false, h1, h2]

/-- On a non-empty list an index that is not positive makes `cl_delete_by_index` run
exactly as for index 0. -/
theorem cl_delete_nonpos_eq_zero {m : Mem} {fuel : Nat} {k : Int}
    (hk : k ≤ 0) (hf : 1 ≤ fuel) :
    cl_delete_by_index fuel m k = cl_delete_by_index fuel m 0 := by
  have h1 := cl_index_loop_stop m.heap m.head NULL hk hf
  have h2 := cl_index_loop_stop m.heap m.head NULL (le_refl (0 : Int)) hf
  unfold cl_delete_by_index
  simp only [h1, h2]

/-- When the comparator accepts the node `c` and rejects every node before it,
`cl_delete_by_value` and `cl_delete_by_index` at the position of `c` produce the same
state. -/
theorem cl_delete_value_index_same {m : Mem} {front back : List (Ptr × Ptr)} {c : Ptr × Ptr}
    {fuel : Nat} {target : Int} {compare : Ptr → Int → Int} {index : Int}
    (hl : ListAt m.heap m.head (front ++ c :: back))
    (hrej : ∀ f ∈ front, compare f.2 target ≠ 0) (hacc : compare c.2 target = 0)
    (hi : index = front.length) (hmax : index ≤ INT_MAX) (hf : front.length + 1 ≤ fuel) :
    ∃ m2, cl_delete_by_value fuel m target compare = Except.ok m2 ∧
      cl_delete_by_index fuel m index = Except.ok (c.2, m2) ∧
      ListAt m2.heap m2.head (front ++ back) := by
  have hhead : m.head ≠ NULL := ListAt_head_ne hl (by simp)
  obtain ⟨r, s1, s2⟩ := (Seg_append m.heap front (c :: back) m.head NULL).mp hl
  have hr : r = c.1 := s2.1
  subst hr
  obtain ⟨nx, h1, head1, h2, u1, u2, u3, u4, u5, _⟩ := unlink_list hl
  have hloop1 := cl_delete_by_value_loop_at NULL s1 hrej (Or.inr ⟨_, u2, hacc⟩) hf
  have hloop2 := cl_index_loop_at index NULL 0 s1 (le_refl 0) (by omega) hmax hf
  refine ⟨Mem.mk h2 head1, ?_, ?_, u5⟩
  · unfold cl_delete_by_value
    rcases u3 with ⟨v1, v2, v3⟩ | ⟨v1, v2, v3⟩
    · subst v2
      simp only [hhead, if_false, hloop1, u1, load_live u1 u2, v1, if_true, u4, v3]
    · simp only [hhead, if_false, hloop1, u1, load_live u1 u2, v1, v2, u4, v3]
  · unfold cl_delete_by_index
    rcases u3 with ⟨v1, v2, v3⟩ | ⟨v1, v2, v3⟩
    · subst v2
      simp only [hhead, if_false, hloop2, u1, load_live u1 u2, v1, if_true, u4, v3]
    · simp only [hhead, if_false, hloop2, u1, load_live u1 u2, v1, v2, u4, v3]

/-- What the loop of `cl_clear` does to a well-formed list: every node gets both fields
set to `NULL`, no block is released, and the rest of the heap is untouched. -/
theorem cl_clear_loop_list {cells : List (Ptr × Ptr)} :
    ∀ {h : Heap} {p : Ptr} {fuel : Nat}, ListAt h p cells → cells.length < fuel →
      ∃ h2, cl_clear_loop fuel h p = Except.ok h2 ∧
        (∀ a ∈ cells.map Prod.fst, h2 a = some (t_node.mk NULL NULL)) ∧
        ∀ q, q ∉ cells.map Prod.fst → h2 q = h q := by
  induction cells with
  | nil =>
    intro h p fuel hl hf
    have hp : p = NULL := hl
    cases fuel with
    | zero => simp at hf
    | succ f => exact ⟨h, by simp [cl_clear_loop, hp], by simp, fun _ _ => rfl⟩
  | cons c cs ih =>
    intro h p fuel hl hf
    have hnd := ListAt_nodup hl
    obtain ⟨e1, e2, nx, e3, e4⟩ := hl
    simp only [List.map_cons, List.nodup_cons] at hnd
    cases fuel with
    | zero => simp at hf
    | succ f =>
      have hf2 : cs.length < f := by simpa using hf
      subst e1
      have w1 : write h c.1 (t_node.mk nx NULL) c.1 = some (t_node.mk nx NULL) :=
        write_same _ _ _
      have hl2 : ListAt (write (write h c.1 (t_node.mk nx NULL)) c.1 (t_node.mk NULL NULL))
          nx cs :=
        Seg_congr (fun a ha => by
          have hap : a ≠ c.1 := fun e => hnd.1 (e ▸ ha)
          rw [write_other _ _ hap, write_other _ _ hap]) e4
      obtain ⟨h3, r1, r2, r3⟩ := ih hl2 hf2
      refine ⟨h3, ?_, ?_, ?_⟩
      · simp only [cl_clear_loop, e2, if_false, load_live e2 e3, set_p_data_live NULL e2 e3,
          set_p_next_live NULL e2 w1, free, if_true]
        exact r1
      · intro a ha
        simp only [List.map_cons, List.mem_cons] at ha
        rcases ha with ha | ha
        · rw [ha, r3 c.1 hnd.1]
          exact write_same _ _ _
        · exact r2 a ha
      · intro q hq
        simp only [List.map_cons, List.mem_cons, not_or] at hq
        rw [r3 q hq.2, write_other _ _ hq.1, write_other _ _ hq.1]

/-- At an index at or beyond the length of a well-formed list, `cl_delete_by_index`
returns `NULL` and leaves the state as it was. -/
theorem cl_delete_by_index_end {m : Mem} {cells : List (Ptr × Ptr)} {fuel : Nat} {k : Int}
    (hl : ListAt m.heap m.head cells) (hk : (cells.length : Int) ≤ k) (hmax : k ≤ INT_MAX)
    (hf : cells.length + 1 ≤ fuel) :
    cl_delete_by_index fuel m k = Except.ok (NULL, m) := by
  have hloop := cl_index_loop_end k NULL 0 hl (le_refl 0) (by omega) hmax hf
  unfold cl_delete_by_index
  split
  · rfl
  · simp only [hloop, if_true]
    rfl

/-! ## The claims -/

/-- C1 (order preservation). Starting from the empty list (head `NULL`), calling
`cl_push` with `v1`, ..., `vn` in turn, every allocation succeeding (each `malloc`
answers a non-null address that is not a live block, so the answers are also pairwise
distinct), terminates without fault, and the head-to-tail traversal of the result hands
exactly `v1`, ..., `vn` to the callback in that order. -/
theorem cl_push_all_order (fuel : Nat) (h0 : Heap) (calls : List (Malloc × Ptr))
    (hnull : ∀ c ∈ calls, c.1.ptr ≠ NULL) (hfresh : ∀ c ∈ calls, h0 c.1.ptr = none)
    (hnd : (calls.map (fun c => c.1.ptr)).Nodup) (hf : calls.length < fuel) :
    ∃ m, cl_push_all fuel calls (Mem.mk h0 NULL) = Except.ok m ∧
      cl_print fuel m.heap m.head = Except.ok (calls.map Prod.snd) ∧
      ListAt m.heap m.head (calls.map (fun c => (c.1.ptr, c.2))) := by
  have hlen : ([] : List (Ptr × Ptr)).length + calls.length ≤ fuel := by simp; omega
  obtain ⟨m, r1, r2⟩ := cl_push_all_list fuel (m := Mem.mk h0 NULL) [] rfl hnull hfresh hnd hlen
  simp only [List.nil_append] at r2
  refine ⟨m, r1, ?_, r2⟩
  rw [cl_print_list r2 (by simpa using hf)]
  simp [Function.comp_def]

/-- C1 at three calls on the empty list. -/
theorem cl_push_all_order_witness :
    ∃ m, cl_push_all 4 [(Malloc.mk 1 (t_node.mk 7 7), 10), (Malloc.mk 2 (t_node.mk 0 9), 20),
        (Malloc.mk 3 (t_node.mk 5 5), 30)] (Mem.mk (heapOf []) NULL) = Except.ok m ∧
      cl_print 4 m.heap m.head = Except.ok [10, 20, 30] ∧
      ListAt m.heap m.head [(1, 10), (2, 20), (3, 30)] :=
  cl_push_all_order 4 (heapOf []) [(Malloc.mk 1 (t_node.mk 7 7), 10),
    (Malloc.mk 2 (t_node.mk 0 9), 20), (Malloc.mk 3 (t_node.mk 5 5), 30)]
    (by decide) (by decide) (by decide) (by decide)

/-- C2 (reverse). For a well-formed list with traversal `v1..vn`, `cl_reverse`
terminates without fault; afterwards the list is well formed with the same nodes in the
opposite order, the traversal from the new head is `vn..v1`, the new head is the node
that was the tail, and on the empty list the head stays `NULL`. -/
theorem cl_reverse_reverses (fuel : Nat) (m : Mem) (cells : List (Ptr × Ptr))
    (hl : ListAt m.heap m.head cells) (hf : cells.length < fuel) :
    ∃ m2, cl_reverse fuel m = Except.ok m2 ∧
      cl_print fuel m2.heap m2.head = Except.ok (cells.map Prod.snd).reverse ∧
      ListAt m2.heap m2.head cells.reverse ∧
      m2.head = (cells.map Prod.fst).getLastD NULL ∧
      (cells = [] → m2.head = NULL) := by
  obtain ⟨m2, r1, r2, r3, _⟩ := cl_reverse_list hl hf
  refine ⟨m2, r1, ?_, r3, r2, ?_⟩
  · rw [cl_print_list r3 (by simpa using hf), List.map_reverse]
  · intro hc
    rw [r2, hc]
    rfl

/-- C2 at the three-node list. -/
theorem cl_reverse_reverses_witness :
    ∃ m2, cl_reverse 4 mem3 = Except.ok m2 ∧
      cl_print 4 m2.heap m2.head = Except.ok [30, 20, 10] ∧
      ListAt m2.heap m2.head [(3, 30), (2, 20), (1, 10)] ∧
      m2.head = 3 ∧
      ([(1, 10), (2, 20), (3, 30)] = ([] : List (Ptr × Ptr)) → m2.head = NULL) :=
  cl_reverse_reverses 4 mem3 [(1, 10), (2, 20), (3, 30)] (by decide) (by decide)

/-- C3 (double reversal). For a well-formed list, applying `cl_reverse` twice
terminates without fault and yields a list whose head-to-tail traversal equals the
original traversal; the list again consists of the same nodes in the original order. -/
theorem cl_reverse_twice (fuel : Nat) (m : Mem) (cells : List (Ptr × Ptr))
    (hl : ListAt m.heap m.head cells) (hf : cells.length < fuel) :
    ∃ m1 m2, cl_reverse fuel m = Except.ok m1 ∧ cl_reverse fuel m1 = Except.ok m2 ∧
      cl_print fuel m2.heap m2.head = cl_print fuel m.heap m.head ∧
      cl_print fuel m2.heap m2.head = Except.ok (cells.map Prod.snd) ∧
      ListAt m2.heap m2.head cells := by
  obtain ⟨m1, r1, _, r3, _⟩ := cl_reverse_list hl hf
  obtain ⟨m2, s1, _, s3, _⟩ := cl_reverse_list r3 (by simpa using hf)
  rw [List.reverse_reverse] at s3
  refine ⟨m1, m2, r1, s1, ?_, cl_print_list s3 hf, s3⟩
  rw [cl_print_list s3 hf, cl_print_list hl hf]

/-- C3 at the three-node list. -/
theorem cl_reverse_twice_witness :
    ∃ m1 m2, cl_reverse 4 mem3 = Except.ok m1 ∧ cl_reverse 4 m1 = Except.ok m2 ∧
      cl_print 4 m2.heap m2.head = cl_print 4 mem3.heap mem3.head ∧
      cl_print 4 m2.heap m2.head = Except.ok [10, 20, 30] ∧
      ListAt m2.heap m2.head [(1, 10), (2, 20), (3, 30)] :=
  cl_reverse_twice 4 mem3 [(1, 10), (2, 20), (3, 30)] (by decide) (by decide)

/-- C4 (shift drains head first), evaluated on the code. On the two-node list with
payloads 10, 20 the first `cl_shift` returns 10 but releases the node it has just made
the head, so the second of the two consecutive calls reads a released node and the run
stops with a fault instead of returning 20. On the one-node list the single call
returns 10 and leaves the head pointing at the released node instead of `NULL`. -/
theorem cl_shift_all_fails :
    cl_shift_all 2 mem2 = Except.error Fault.invalidPointer ∧
    (cl_shift mem2).map (fun r => (r.1, r.2.head, r.2.heap 1, r.2.heap 2))
      = Except.ok (10, 2, some (t_node.mk 2 10), none) ∧
    (cl_shift_all 1 mem1).map (fun r => (r.1, r.2.head, r.2.heap r.2.head))
      = Except.ok ([10], 1, none) :=
  ⟨rfl, rfl, rfl⟩

/-- C5 (pop), evaluated on the code for a list of exactly one node: `cl_pop` returns
the payload 10 and releases the node, but the head is not cleared; it still holds the
address 1 of the released node, and a traversal from it faults. -/
theorem cl_pop_single_keeps_head :
    (cl_pop 2 mem1).map (fun r => (r.1, r.2.head, r.2.heap r.2.head,
        cl_print 2 r.2.heap r.2.head))
      = Except.ok (10, 1, none, Except.error Fault.invalidPointer) :=
  rfl

/-- C6 (push and pop are inverse on a non-empty list). For a non-empty well-formed
list and a payload `x`, `cl_push(x)` with a succeeding allocation followed by `cl_pop`
terminates without fault, the `cl_pop` returns `x`, and the traversal afterwards equals
the traversal before the push. -/
theorem cl_push_pop_inverse (fuel : Nat) (m : Mem) (cells : List (Ptr × Ptr)) (a : Malloc)
    (x : Ptr) (hl : ListAt m.heap m.head cells) (hne : cells ≠ [])
    (hf : cells.length + 1 < fuel) (ha : a.ptr ≠ NULL) (hfresh : m.heap a.ptr = none) :
    ∃ m1 m2, cl_push fuel a m x = Except.ok m1 ∧ cl_pop fuel m1 = Except.ok (x, m2) ∧
      cl_print fuel m2.heap m2.head = cl_print fuel m.heap m.head ∧
      cl_print fuel m.heap m.head = Except.ok (cells.map Prod.snd) ∧
      ListAt m2.heap m2.head cells := by
  have hlt : cells.length < fuel := by omega
  obtain ⟨m1, p1, _, p3, _⟩ := cl_push_list x hl hlt ha hfresh
  rcases List.eq_nil_or_concat cells with hc | ⟨front, b, hc⟩
  · exact absurd hc hne
  · rw [List.concat_eq_append] at hc
    subst hc
    have hlen : front.length + 2 ≤ fuel := by simp at hf; omega
    obtain ⟨h2, q1, q2, _⟩ := cl_pop_list (c := (a.ptr, x)) p3 hlen
    have hhead : m1.head = m.head := by
      have := ListAt_nodup p3
      obtain ⟨e1, _⟩ := (Seg_append m1.heap front _ m1.head NULL).mp
        (by rw [List.append_assoc] at p3; exact p3)
      obtain ⟨f1, _⟩ := (Seg_append m.heap front _ m.head NULL).mp hl
      cases front with
      | nil =>
        have g1 : m1.head = b.1 := q2.1
        have g2 : m.head = b.1 := hl.1
        rw [g1, g2]
      | cons d ds =>
        have g1 : m1.head = d.1 := q2.1
        have g2 : m.head = d.1 := hl.1
        rw [g1, g2]
    rw [hhead] at q1 q2
    refine ⟨m1, Mem.mk h2 m.head, p1, q1, ?_, cl_print_list hl hlt, q2⟩
    rw [cl_print_list hl hlt]
    exact cl_print_list q2 hlt

/-- C6 at the three-node list and the payload 40. -/
theorem cl_push_pop_inverse_witness :
    ∃ m1 m2, cl_push 5 alloc4 mem3 40 = Except.ok m1 ∧ cl_pop 5 m1 = Except.ok (40, m2) ∧
      cl_print 5 m2.heap m2.head = cl_print 5 mem3.heap mem3.head ∧
      cl_print 5 mem3.heap mem3.head = Except.ok [10, 20, 30] ∧
      ListAt m2.heap m2.head [(1, 10), (2, 20), (3, 30)] :=
  cl_push_pop_inverse 5 mem3 [(1, 10), (2, 20), (3, 30)] alloc4 40 (by decide) (by decide)
    (by decide) (by decide) (by decide)

/-- C7 (teardown), evaluated on the code for the three-node list: after `cl_clear` the
head still holds the address 1, the three nodes are still live blocks (each with both
fields set to `NULL`), and the traversal visits one node and hands its `NULL` payload to
the callback; the list is not empty. A second `cl_clear` gives the same state. -/
theorem cl_clear_keeps_head :
    (cl_clear 4 mem3).map (fun r => (r.head, r.heap 1, r.heap 2, r.heap 3,
        cl_print 4 r.heap r.head))
      = Except.ok (1, some (t_node.mk NULL NULL), some (t_node.mk NULL NULL),
          some (t_node.mk NULL NULL), Except.ok [NULL]) ∧
    ((cl_clear 4 mem3).bind (cl_clear 4)).map (fun r => (r.head, cl_print 4 r.heap r.head))
      = Except.ok (1, Except.ok [NULL]) :=
  ⟨rfl, rfl⟩

/-- C8 as stated fails on the empty list: at index 1 `cl_insert_value_at_index`
returns at once and the list stays empty, while `cl_push` yields the one-element
list. -/
theorem cl_insert_beyond_empty_differs :
    (cl_insert_value_at_index 2 alloc4 mem0 40 1).map (fun r => cl_print 2 r.heap r.head)
      = Except.ok (Except.ok []) ∧
    (cl_push 2 alloc4 mem0 40).map (fun r => cl_print 2 r.heap r.head)
      = Except.ok (Except.ok [40]) ∧
    (cl_insert_value_at_index 2 alloc4 mem0 40 1).map (fun r => cl_print 2 r.heap r.head)
      ≠ (cl_push 2 alloc4 mem0 40).map (fun r => cl_print 2 r.heap r.head) ∧
    ListAt mem0.heap mem0.head [] ∧ (([] : List (Ptr × Ptr)).length : Int) ≤ 1 ∧
    alloc4.ptr ≠ NULL ∧ mem0.heap alloc4.ptr = none :=
  ⟨rfl, rfl, by decide, rfl, by decide, by decide, rfl⟩

/-- C8 amended (insert at or beyond the length degrades to append). For a well-formed
list `L`, a payload `x` and an `int` index `k` with `k ≥ length(L)`: when `L` is
non-empty or `k = 0`, `cl_insert_value_at_index(x, k)` is the same computation as
`cl_push(x)`, and with a succeeding allocation its result has the traversal of `L`
followed by `x`; when `L` is empty and `k ≠ 0`, it returns with the list unchanged. -/
theorem cl_insert_beyond_is_push (fuel : Nat) (m : Mem) (cells : List (Ptr × Ptr))
    (a : Malloc) (x : Ptr) (k : Int) (hl : ListAt m.heap m.head cells)
    (hk : (cells.length : Int) ≤ k) (hmax : k ≤ INT_MAX) (hf : cells.length + 1 < fuel)
    (ha : a.ptr ≠ NULL) (hfresh : m.heap a.ptr = none) :
    (cells ≠ [] ∨ k = 0 →
      cl_insert_value_at_index fuel a m x k = cl_push fuel a m x ∧
      ∃ m2, cl_insert_value_at_index fuel a m x k = Except.ok m2 ∧
        cl_print fuel m2.heap m2.head = Except.ok (cells.map Prod.snd ++ [x]) ∧
        ListAt m2.heap m2.head (cells ++ [(a.ptr, x)])) ∧
    (cells = [] ∧ k ≠ 0 → cl_insert_value_at_index fuel a m x k = Except.ok m) := by
  constructor
  · intro hne
    have hf1 : cells.length + 1 ≤ fuel := by omega
    have hf2 : cells.length < fuel := by omega
    have heq := cl_insert_end_eq_push a x hl hk hmax hne hf1
    obtain ⟨m2, p1, _, p3, _⟩ := cl_push_list x hl hf2 ha hfresh
    refine ⟨heq, m2, heq.trans p1, ?_, p3⟩
    rw [cl_print_list p3 (by simp; omega)]
    simp
  · rintro ⟨hc, hk0⟩
    subst hc
    have hp : m.head = NULL := hl
    simp [cl_insert_value_at_index, hp, hk0]

/-- C8 amended, at the three-node list, the payload 40 and the index 7. -/
theorem cl_insert_beyond_is_push_witness :
    (([(1, 10), (2, 20), (3, 30)] : List (Ptr × Ptr)) ≠ [] ∨ (7 : Int) = 0 →
      cl_insert_value_at_index 5 alloc4 mem3 40 7 = cl_push 5 alloc4 mem3 40 ∧
      ∃ m2, cl_insert_value_at_index 5 alloc4 mem3 40 7 = Except.ok m2 ∧
        cl_print 5 m2.heap m2.head = Except.ok [10, 20, 30, 40] ∧
        ListAt m2.heap m2.head [(1, 10), (2, 20), (3, 30), (4, 40)]) ∧
    (([(1, 10), (2, 20), (3, 30)] : List (Ptr × Ptr)) = [] ∧ (7 : Int) ≠ 0 →
      cl_insert_value_at_index 5 alloc4 mem3 40 7 = Except.ok mem3) :=
  cl_insert_beyond_is_push 5 mem3 [(1, 10), (2, 20), (3, 30)] alloc4 40 7 (by decide)
    (by decide) (by decide) (by decide) (by decide) (by decide)

/-- C9 (insert at an index inside the list). For a well-formed list with traversal
`v0..v(n-1)`, a payload `x` and an `int` index `k` with `0 ≤ k < n`,
`cl_insert_value_at_index(x, k)` with a succeeding allocation terminates without fault;
afterwards the traversal is `v0..v(k-1), x, vk..v(n-1)`, so the new node is at position
`k` and the list is one longer, and when `k = 0` the new node is the head. -/
theorem cl_insert_inside (fuel : Nat) (m : Mem) (cells : List (Ptr × Ptr)) (a : Malloc)
    (x : Ptr) (k : Nat) (hl : ListAt m.heap m.head cells) (hk : k < cells.length)
    (hmax : (k : Int) ≤ INT_MAX) (hf : cells.length + 1 < fuel)
    (ha : a.ptr ≠ NULL) (hfresh : m.heap a.ptr = none) :
    ∃ m2, cl_insert_value_at_index fuel a m x (k : Int) = Except.ok m2 ∧
      cl_print fuel m2.heap m2.head
        = Except.ok ((cells.map Prod.snd).take k ++ x :: (cells.map Prod.snd).drop k) ∧
      ListAt m2.heap m2.head (cells.take k ++ (a.ptr, x) :: cells.drop k) ∧
      ((cells.map Prod.snd).take k ++ x :: (cells.map Prod.snd).drop k)[k]? = some x ∧
      ((cells.map Prod.snd).take k ++ x :: (cells.map Prod.snd).drop k).length
        = cells.length + 1 ∧
      (k = 0 → m2.head = a.ptr) := by
  obtain ⟨c, back, hsplit, hdrop, hlen, _, _⟩ := split_at_index hk
  have hl2 : ListAt m.heap m.head (cells.take k ++ c :: back) := hsplit ▸ hl
  have hi : (k : Int) = ((cells.take k).length : Nat) := by rw [hlen]
  have hfl : (cells.take k).length + 1 ≤ fuel := by rw [hlen]; omega
  obtain ⟨m2, p1, p2, p3, _⟩ := cl_insert_at_list x hl2 hi hmax hfl ha hfresh
  have hlist : ListAt m2.heap m2.head (cells.take k ++ (a.ptr, x) :: cells.drop k) := by
    rw [hdrop]; exact p2
  have hlk : ((cells.map Prod.snd).take k).length = k := by simp; omega
  refine ⟨m2, p1, ?_, hlist, ?_, ?_, ?_⟩
  · rw [cl_print_list hlist (by simp; omega)]
    simp [List.map_take, List.map_drop]
  · rw [List.getElem?_append_right (by omega), hlk]
    simp
  · simp
    omega
  · intro h0
    subst h0
    rw [p3]
    simp

/-- C9 at the three-node list, the payload 40 and the index 1. -/
theorem cl_insert_inside_witness :
    ∃ m2, cl_insert_value_at_index 5 alloc4 mem3 40 ((1 : Nat) : Int) = Except.ok m2 ∧
      cl_print 5 m2.heap m2.head = Except.ok [10, 40, 20, 30] ∧
      ListAt m2.heap m2.head [(1, 10), (4, 40), (2, 20), (3, 30)] ∧
      ([10, 40, 20, 30] : List Ptr)[1]? = some 40 ∧
      ([10, 40, 20, 30] : List Ptr).length = 3 + 1 ∧
      (1 = 0 → m2.head = alloc4.ptr) :=
  cl_insert_inside 5 mem3 [(1, 10), (2, 20), (3, 30)] alloc4 40 1 (by decide) (by decide)
    (by decide) (by decide) (by decide) (by decide)

/-- C10 (delete at an index inside the list). For a well-formed list with traversal
`v0..v(n-1)` and an `int` index `k` with `0 ≤ k < n`, `cl_delete_by_index(k)` terminates
without fault and returns the payload `vk`; afterwards the traversal is
`v0..v(k-1), v(k+1)..v(n-1)`, the removed node is released, and when `k = 0` the head is
the former second node, or `NULL` when `n = 1`. -/
theorem cl_delete_inside (fuel : Nat) (m : Mem) (cells : List (Ptr × Ptr)) (k : Nat)
    (hl : ListAt m.heap m.head cells) (hk : k < cells.length)
    (hmax : (k : Int) ≤ INT_MAX) (hf : cells.length < fuel) :
    ∃ v m2, cl_delete_by_index fuel m (k : Int) = Except.ok (v, m2) ∧
      (cells.map Prod.snd)[k]? = some v ∧
      cl_print fuel m2.heap m2.head
        = Except.ok ((cells.map Prod.snd).take k ++ (cells.map Prod.snd).drop (k + 1)) ∧
      ListAt m2.heap m2.head (cells.take k ++ cells.drop (k + 1)) ∧
      (k = 0 → m2.head = ((cells.drop 1).map Prod.fst).headD NULL) := by
  obtain ⟨c, back, hsplit, _, hlen, hget, hdrop⟩ := split_at_index hk
  have hl2 : ListAt m.heap m.head (cells.take k ++ c :: back) := hsplit ▸ hl
  have hi : (k : Int) = ((cells.take k).length : Nat) := by rw [hlen]
  have hfl : (cells.take k).length + 1 ≤ fuel := by rw [hlen]; omega
  obtain ⟨m2, p1, p2, p3, _⟩ := cl_delete_by_index_list hl2 hi hmax hfl
  have hlist : ListAt m2.heap m2.head (cells.take k ++ cells.drop (k + 1)) := by
    rw [hdrop]; exact p2
  refine ⟨c.2, m2, p1, hget, ?_, hlist, ?_⟩
  · rw [cl_print_list hlist (by simp; omega)]
    simp [List.map_take, List.map_drop]
  · intro h0
    subst h0
    rw [p3, ← hdrop]
    simp

/-- C10 at the three-node list and the index 1. -/
theorem cl_delete_inside_witness :
    ∃ v m2, cl_delete_by_index 5 mem3 ((1 : Nat) : Int) = Except.ok (v, m2) ∧
      ([10, 20, 30] : List Ptr)[1]? = some v ∧
      cl_print 5 m2.heap m2.head = Except.ok [10, 30] ∧
      ListAt m2.heap m2.head [(1, 10), (3, 30)] ∧
      (1 = 0 → m2.head = (([(2, 20), (3, 30)] : List (Ptr × Ptr)).map Prod.fst).headD NULL) :=
  cl_delete_inside 5 mem3 [(1, 10), (2, 20), (3, 30)] 1 (by decide) (by decide) (by decide)
    (by decide)

/-- C11 (delete out of range is a no-op). For a well-formed list `L` and an `int`
index `k` with `k ≥ length(L)`, `cl_delete_by_index(k)` terminates without fault,
returns `NULL` and leaves the head and every node, hence the traversal, unchanged. -/
theorem cl_delete_beyond_noop (fuel : Nat) (m : Mem) (cells : List (Ptr × Ptr)) (k : Int)
    (hl : ListAt m.heap m.head cells) (hk : (cells.length : Int) ≤ k) (hmax : k ≤ INT_MAX)
    (hf : cells.length < fuel) :
    cl_delete_by_index fuel m k = Except.ok (NULL, m) ∧
      cl_print fuel m.heap m.head = Except.ok (cells.map Prod.snd) := by
  refine ⟨?_, cl_print_list hl hf⟩
  have hf1 : cells.length + 1 ≤ fuel := by omega
  have hloop := cl_index_loop_end k NULL 0 hl (le_refl 0) (by omega) hmax hf1
  unfold cl_delete_by_index
  split
  · rfl
  · simp only [hloop, if_true]
    rfl

/-- C11 at the three-node list and the index 8. -/
theorem cl_delete_beyond_noop_witness :
    cl_delete_by_index 4 mem3 8 = Except.ok (NULL, mem3) ∧
      cl_print 4 mem3.heap mem3.head = Except.ok [10, 20, 30] :=
  cl_delete_beyond_noop 4 mem3 [(1, 10), (2, 20), (3, 30)] 8 (by decide) (by decide)
    (by decide) (by decide)

/-- C12 (delete by value removes the first match only). For a well-formed list of
`int` payloads in which the target `t` occurs, `cl_delete_by_value(t, cl_compare_int)`
terminates without fault and unlinks and releases exactly the first node whose payload
equals `t`: the nodes before it and after it stay in their order, so the traversal is
the original with the earliest occurrence of `t` erased and later occurrences kept. -/
theorem cl_delete_by_value_first (fuel : Nat) (m : Mem) (cells : List (Ptr × Ptr))
    (ints : Ptr → Int) (t : Int) (hl : ListAt m.heap m.head cells)
    (hocc : t ∈ cells.map (fun c => ints c.2)) (hf : cells.length < fuel) :
    ∃ m2 front c back, cl_delete_by_value fuel m t (cl_compare_int ints) = Except.ok m2 ∧
      cells = front ++ c :: back ∧ (∀ f ∈ front, ints f.2 ≠ t) ∧ ints c.2 = t ∧
      ListAt m2.heap m2.head (front ++ back) ∧ m2.heap c.1 = none ∧
      (cl_print fuel m2.heap m2.head).map (List.map ints)
        = Except.ok ((cells.map (fun c => ints c.2)).erase t) := by
  have hex : ∃ c ∈ cells, ints c.2 = t := by
    obtain ⟨c, hc, hct⟩ := List.mem_map.mp hocc
    exact ⟨c, hc, hct⟩
  obtain ⟨front, c, back, hsplit, hfront, hc⟩ := split_at_first (fun c => ints c.2 = t) hex
  subst hsplit
  have hrej : ∀ f ∈ front, cl_compare_int ints f.2 t ≠ 0 := by
    intro f hf
    simp [cl_compare_int, hfront f hf]
  have hacc : cl_compare_int ints c.2 t = 0 := by simp [cl_compare_int, hc]
  have hf1 : front.length + 1 ≤ fuel := by simp at hf; omega
  obtain ⟨m2, p1, p2, _, p4⟩ := cl_delete_by_value_list hl hrej hacc hf1
  refine ⟨m2, front, c, back, p1, rfl, hfront, hc, p2, p4, ?_⟩
  have hnot : t ∉ front.map (fun c => ints c.2) := by
    intro hmem
    obtain ⟨f, hf, hft⟩ := List.mem_map.mp hmem
    exact hfront f hf hft
  rw [cl_print_list p2 (by simp at hf ⊢; omega)]
  simp only [Except.map, List.map_append, List.map_cons, List.map_map]
  rw [List.erase_append_right _ hnot, ← hc, List.erase_cons_head]
  rfl

/-- C12 at the four-node list with the values 1, 2, 3, 2 and the target 2. -/
theorem cl_delete_by_value_first_witness :
    ∃ m2 front c back, cl_delete_by_value 5 mem4 2 (cl_compare_int int_at) = Except.ok m2 ∧
      [(1, 10), (2, 20), (3, 30), (4, 21)] = front ++ c :: back ∧
      (∀ f ∈ front, int_at f.2 ≠ 2) ∧ int_at c.2 = 2 ∧
      ListAt m2.heap m2.head (front ++ back) ∧ m2.heap c.1 = none ∧
      (cl_print 5 m2.heap m2.head).map (List.map int_at) = Except.ok [1, 3, 2] :=
  cl_delete_by_value_first 5 mem4 [(1, 10), (2, 20), (3, 30), (4, 21)] int_at 2 (by decide)
    (by decide) (by decide)

/-- C13 (value not found). For a well-formed list and a target for which the
comparator answers "does not match" (nonzero) at every node, `cl_delete_by_value`
terminates without fault and leaves the head and the whole heap unchanged. -/
theorem cl_delete_by_value_absent (fuel : Nat) (m : Mem) (cells : List (Ptr × Ptr))
    (t : Int) (compare : Ptr → Int → Int) (hl : ListAt m.heap m.head cells)
    (hrej : ∀ c ∈ cells, compare c.2 t ≠ 0) (hf : cells.length < fuel) :
    cl_delete_by_value fuel m t compare = Except.ok m :=
  cl_delete_by_value_none hl hrej (by omega)

/-- C13 at the three-node list with the values 1, 2, 3 and the target 9. -/
theorem cl_delete_by_value_absent_witness :
    cl_delete_by_value 4 mem3 9 (cl_compare_int int_at) = Except.ok mem3 :=
  cl_delete_by_value_absent 4 mem3 [(1, 10), (2, 20), (3, 30)] 9 (cl_compare_int int_at)
    (by decide) (by decide) (by decide)

/-- C14 (unshift is insert at 0). For a well-formed list `L`, empty or not, and a
payload `x`, `cl_unshift(x)` is the computation `cl_insert_value_at_index(x, 0)`; with a
succeeding allocation it terminates without fault, the new node is the head, the head
node's payload is `x`, and the traversal is `x` followed by the traversal of `L`. -/
theorem cl_unshift_front (fuel : Nat) (m : Mem) (cells : List (Ptr × Ptr)) (a : Malloc)
    (x : Ptr) (hl : ListAt m.heap m.head cells) (hf : cells.length + 1 < fuel)
    (ha : a.ptr ≠ NULL) (hfresh : m.heap a.ptr = none) :
    cl_unshift fuel a m x = cl_insert_value_at_index fuel a m x 0 ∧
    ∃ m2, cl_unshift fuel a m x = Except.ok m2 ∧ m2.head = a.ptr ∧
      (load m2.heap m2.head).map t_node.p_data = Except.ok x ∧
      cl_print fuel m2.heap m2.head = Except.ok (x :: cells.map Prod.snd) ∧
      ListAt m2.heap m2.head ((a.ptr, x) :: cells) := by
  refine ⟨rfl, ?_⟩
  have key : ∃ m2, cl_insert_value_at_index fuel a m x 0 = Except.ok m2 ∧ m2.head = a.ptr ∧
      ListAt m2.heap m2.head ((a.ptr, x) :: cells) := by
    cases cells with
    | nil =>
      have hf1 : ([] : List (Ptr × Ptr)).length + 1 ≤ fuel := by omega
      have hf2 : ([] : List (Ptr × Ptr)).length < fuel := by omega
      have heq := cl_insert_end_eq_push a x hl (by simp) (by decide) (Or.inr rfl) hf1
      obtain ⟨m2, p1, p2, p3, _⟩ := cl_push_list x hl hf2 ha hfresh
      exact ⟨m2, heq.trans p1, by simpa using p2, by simpa using p3⟩
    | cons c back =>
      have hl2 : ListAt m.heap m.head ([] ++ c :: back) := hl
      have hi : (0 : Int) = (([] : List (Ptr × Ptr)).length : Nat) := by simp
      have hf1 : ([] : List (Ptr × Ptr)).length + 1 ≤ fuel := by simp; omega
      obtain ⟨m2, p1, p2, p3, _⟩ := cl_insert_at_list x hl2 hi (by decide) hf1 ha hfresh
      exact ⟨m2, p1, by simpa using p3, by simpa using p2⟩
  obtain ⟨m2, q1, q2, q3⟩ := key
  refine ⟨m2, q1, q2, ?_, ?_, q3⟩
  · obtain ⟨e1, e2, nx, e3, _⟩ := q3
    rw [e1, load_live e2 e3]
    rfl
  · rw [cl_print_list q3 (by simp; omega)]
    rfl

/-- C14 at the three-node list and the payload 40. -/
theorem cl_unshift_front_witness :
    cl_unshift 5 alloc4 mem3 40 = cl_insert_value_at_index 5 alloc4 mem3 40 0 ∧
    ∃ m2, cl_unshift 5 alloc4 mem3 40 = Except.ok m2 ∧ m2.head = alloc4.ptr ∧
      (load m2.heap m2.head).map t_node.p_data = Except.ok 40 ∧
      cl_print 5 m2.heap m2.head = Except.ok [40, 10, 20, 30] ∧
      ListAt m2.heap m2.head [(4, 40), (1, 10), (2, 20), (3, 30)] :=
  cl_unshift_front 5 mem3 [(1, 10), (2, 20), (3, 30)] alloc4 40 (by decide) (by decide)
    (by decide) (by decide)

/-- C15 (allocation failure). When `malloc` answers `NULL`, `cl_push` and, for every
`int` index, `cl_insert_value_at_index` on a well-formed list terminate without fault and
leave the state exactly as it was: the same head and the same heap, so every node keeps
its link and its payload. -/
theorem alloc_failure_no_change (fuel : Nat) (m : Mem) (cells : List (Ptr × Ptr))
    (a : Malloc) (x : Ptr) (k : Int) (hl : ListAt m.heap m.head cells)
    (hf : cells.length < fuel) (ha : a.ptr = NULL) :
    cl_push fuel a m x = Except.ok m ∧
      cl_insert_value_at_index fuel a m x k = Except.ok m := by
  have hmalloc : malloc m.heap a = (m.heap, NULL) := by simp [malloc, ha]
  have hpush : cl_push fuel a m x = Except.ok m := by
    unfold cl_push
    rw [hmalloc]
    simp
  refine ⟨hpush, ?_⟩
  have hf1 : cells.length + 1 ≤ fuel := by omega
  obtain ⟨q, r, hloop⟩ := cl_index_loop_terminates k NULL 0 hl hf1
  unfold cl_insert_value_at_index
  split
  · rfl
  · simp only [hloop, hmalloc, hpush, if_true, ite_self]

/-- C15 at the three-node list, the payload 40 and the index 1. -/
theorem alloc_failure_no_change_witness :
    cl_push 4 alloc_fail mem3 40 = Except.ok mem3 ∧
      cl_insert_value_at_index 4 alloc_fail mem3 40 1 = Except.ok mem3 :=
  alloc_failure_no_change 4 mem3 [(1, 10), (2, 20), (3, 30)] alloc_fail 40 1 (by decide)
    (by decide) (by decide)

/-- C16 (empty list). With the head `NULL`, `cl_pop`, `cl_shift` and, for every index,
`cl_delete_by_index` return `NULL`, and they as well as `cl_delete_by_value`,
`cl_reverse` and `cl_clear` leave the state unchanged, so the head stays `NULL`. -/
theorem empty_list_noop (fuel : Nat) (m : Mem) (k : Int) (t : Int)
    (compare : Ptr → Int → Int) (hm : m.head = NULL) :
    cl_pop fuel m = Except.ok (NULL, m) ∧ cl_shift m = Except.ok (NULL, m) ∧
      cl_delete_by_index fuel m k = Except.ok (NULL, m) ∧
      cl_delete_by_value fuel m t compare = Except.ok m ∧
      cl_reverse fuel m = Except.ok m ∧ cl_clear fuel m = Except.ok m := by
  refine ⟨?_, ?_, ?_, ?_, ?_, ?_⟩
  · simp [cl_pop, hm]
  · simp [cl_shift, hm]
  · simp [cl_delete_by_index, hm]
  · simp [cl_delete_by_value, hm]
  · simp [cl_reverse, hm]
  · simp [cl_clear, hm]

/-- C16 at the empty list, the index 3 and the target 2. -/
theorem empty_list_noop_witness :
    cl_pop 0 mem0 = Except.ok (NULL, mem0) ∧ cl_shift mem0 = Except.ok (NULL, mem0) ∧
      cl_delete_by_index 0 mem0 3 = Except.ok (NULL, mem0) ∧
      cl_delete_by_value 0 mem0 2 (cl_compare_int int_at) = Except.ok mem0 ∧
      cl_reverse 0 mem0 = Except.ok mem0 ∧ cl_clear 0 mem0 = Except.ok mem0 :=
  empty_list_noop 0 mem0 3 2 (cl_compare_int int_at) rfl

/-- C17 (the literal scenario), evaluated on the code step by step. The pushes give
"1 2 3", `cl_reverse` gives "3 2 1", `cl_pop` returns 1 and leaves "3 2",
`cl_delete_by_index(0)` returns 3 and leaves "2", the insertion of 5 at index 5 leaves
"2 5", `cl_delete_by_value(2)` leaves "5"; all as the scenario says. The final `cl_clear`
does not: the head still holds the address 4 of the remaining node, which is still a
live block with both fields `NULL`, and the traversal visits that one node instead of
none. -/
theorem scenario_trace :
    scenario_pushed.map shown = Except.ok (1, Except.ok [1, 2, 3]) ∧
    scenario_reversed.map shown = Except.ok (3, Except.ok [3, 2, 1]) ∧
    scenario_popped.map (fun r => (int_at r.1, shown r.2))
      = Except.ok (1, 3, Except.ok [3, 2]) ∧
    scenario_deleted.map (fun r => (int_at r.1, shown r.2))
      = Except.ok (3, 2, Except.ok [2]) ∧
    scenario_inserted.map shown = Except.ok (2, Except.ok [2, 5]) ∧
    scenario_value_deleted.map shown = Except.ok (4, Except.ok [5]) ∧
    scenario_cleared.map (fun r => (r.head, r.heap r.head, cl_print 8 r.heap r.head))
      = Except.ok (4, some (t_node.mk NULL NULL), Except.ok [NULL]) :=
  ⟨rfl, rfl, rfl, rfl, rfl, rfl, rfl⟩

/-- C18 (well-formedness is preserved), evaluated on the code where it fails. From the
well-formed two-node list `cl_shift` leaves a head that points at a released node, and
from the well-formed one-node list so does `cl_pop`; in both cases no chain of live
nodes starts at the head any more. -/
theorem mutators_leave_dangling_head :
    (ListAt mem2.heap mem2.head [(1, 10), (2, 20)] ∧
      ∃ r, cl_shift mem2 = Except.ok r ∧ r.2.head ≠ NULL ∧ r.2.heap r.2.head = none ∧
        ∀ cells, ¬ ListAt r.2.heap r.2.head cells) ∧
    (ListAt mem1.heap mem1.head [(1, 10)] ∧
      ∃ r, cl_pop 2 mem1 = Except.ok r ∧ r.2.head ≠ NULL ∧ r.2.heap r.2.head = none ∧
        ∀ cells, ¬ ListAt r.2.heap r.2.head cells) :=
  ⟨⟨by decide, _, rfl, by decide, rfl, not_ListAt_of_released (by decide) rfl⟩,
    ⟨by decide, _, rfl, by decide, rfl, not_ListAt_of_released (by decide) rfl⟩⟩

/-- C19 (shift releases the original head), evaluated on the code for the three-node
list: `cl_shift` returns the payload 10 and makes the second node (address 2) the head,
but the block it releases is that second node; the original head (address 1) is still
a live block. -/
theorem cl_shift_releases_new_head :
    (cl_shift mem3).map (fun r => (r.1, r.2.head, r.2.heap 1, r.2.heap 2, r.2.heap 3))
      = Except.ok (10, 2, some (t_node.mk 2 10), none, some (t_node.mk NULL 30)) :=
  rfl

/-- C20 (clear releases every node), evaluated on the code for the three-node list and
the one-node list: after `cl_clear` every node of the original chain is still a live
block (with both fields `NULL`); none has been released. -/
theorem cl_clear_releases_nothing :
    (cl_clear 4 mem3).map (fun r => (r.heap 1, r.heap 2, r.heap 3))
      = Except.ok (some (t_node.mk NULL NULL), some (t_node.mk NULL NULL),
          some (t_node.mk NULL NULL)) ∧
    (cl_clear 2 mem1).map (fun r => r.heap 1) = Except.ok (some (t_node.mk NULL NULL)) :=
  ⟨rfl, rfl⟩

/-- C21 (comparator convention). For every `int` payload value and every `int` target,
`cl_compare_int` returns a nonzero result exactly when the payload differs from the
target and 0 exactly when they are equal: it answers "does not match". -/
theorem cl_compare_int_mismatch (ints : Ptr → Int) (p_data : Ptr) (target : Int) :
    (cl_compare_int ints p_data target ≠ 0 ↔ ints p_data ≠ target) ∧
      (cl_compare_int ints p_data target = 0 ↔ ints p_data = target) := by
  unfold cl_compare_int
  by_cases h : ints p_data = target <;> simp [h]

/-- C22 (the header's description of the result), evaluated on the code: for a payload
equal to the target (value 2, target 2) `cl_compare_int` returns 0, not 1, and for a
payload different from the target (value 2, target 3) it returns 1, not 0. -/
theorem cl_compare_int_match_is_zero :
    int_at 20 = 2 ∧ cl_compare_int int_at 20 2 = 0 ∧
      int_at 20 ≠ 3 ∧ cl_compare_int int_at 20 3 = 1 := by
  decide

/-- C23 as stated fails on the empty list: at the index -1 `cl_insert_value_at_index`
returns at once and the list stays empty, while index 0 inserts the node. -/
theorem cl_insert_negative_empty_differs :
    (cl_insert_value_at_index 2 alloc4 mem0 40 (-1)).map (fun r => cl_print 2 r.heap r.head)
      = Except.ok (Except.ok []) ∧
    (cl_insert_value_at_index 2 alloc4 mem0 40 0).map (fun r => cl_print 2 r.heap r.head)
      = Except.ok (Except.ok [40]) ∧
    ListAt mem0.heap mem0.head [] ∧ alloc4.ptr ≠ NULL ∧ mem0.heap alloc4.ptr = none :=
  ⟨rfl, rfl, rfl, by decide, rfl⟩

/-- C23 amended (negative index on insert). For a well-formed list `L`, a payload `x`
and a negative index `k`: when `L` is non-empty, `cl_insert_value_at_index(x, k)` is the
same computation as at index 0 and, with a succeeding allocation, puts the new node at
the front, so the traversal is `x` followed by the traversal of `L`; when `L` is empty,
it returns with the list unchanged. -/
theorem cl_insert_negative_front (fuel : Nat) (m : Mem) (cells : List (Ptr × Ptr))
    (a : Malloc) (x : Ptr) (k : Int) (hl : ListAt m.heap m.head cells) (hk : k < 0)
    (hf : cells.length + 1 < fuel) (ha : a.ptr ≠ NULL) (hfresh : m.heap a.ptr = none) :
    (cells ≠ [] →
      cl_insert_value_at_index fuel a m x k = cl_insert_value_at_index fuel a m x 0 ∧
      ∃ m2, cl_insert_value_at_index fuel a m x k = Except.ok m2 ∧ m2.head = a.ptr ∧
        cl_print fuel m2.heap m2.head = Except.ok (x :: cells.map Prod.snd) ∧
        ListAt m2.heap m2.head ((a.ptr, x) :: cells)) ∧
    (cells = [] → cl_insert_value_at_index fuel a m x k = Except.ok m) := by
  constructor
  · intro hne
    have hhead : m.head ≠ NULL := ListAt_head_ne hl hne
    have heq := cl_insert_nonpos_eq_zero a x hhead (le_of_lt hk) (by omega : 1 ≤ fuel)
    obtain ⟨c, back, hcb⟩ := List.exists_cons_of_ne_nil hne
    subst hcb
    have hl2 : ListAt m.heap m.head ([] ++ c :: back) := hl
    have hi : (0 : Int) = (([] : List (Ptr × Ptr)).length : Nat) := by simp
    have hf1 : ([] : List (Ptr × Ptr)).length + 1 ≤ fuel := by simp; omega
    obtain ⟨m2, p1, p2, p3, _⟩ := cl_insert_at_list x hl2 hi (by decide) hf1 ha hfresh
    have p2b : ListAt m2.heap m2.head ((a.ptr, x) :: c :: back) := p2
    refine ⟨heq, m2, heq.trans p1, by simpa using p3, ?_, p2b⟩
    rw [cl_print_list p2b (by simp at hf ⊢; omega)]
    rfl
  · intro hc
    subst hc
    have hp : m.head = NULL := hl
    have hk0 : k ≠ 0 := by omega
    simp [cl_insert_value_at_index, hp, hk0]

/-- C23 amended, at the three-node list, the payload 40 and the index -3. -/
theorem cl_insert_negative_front_witness :
    (([(1, 10), (2, 20), (3, 30)] : List (Ptr × Ptr)) ≠ [] →
      cl_insert_value_at_index 5 alloc4 mem3 40 (-3)
        = cl_insert_value_at_index 5 alloc4 mem3 40 0 ∧
      ∃ m2, cl_insert_value_at_index 5 alloc4 mem3 40 (-3) = Except.ok m2 ∧
        m2.head = alloc4.ptr ∧
        cl_print 5 m2.heap m2.head = Except.ok [40, 10, 20, 30] ∧
        ListAt m2.heap m2.head [(4, 40), (1, 10), (2, 20), (3, 30)]) ∧
    (([(1, 10), (2, 20), (3, 30)] : List (Ptr × Ptr)) = [] →
      cl_insert_value_at_index 5 alloc4 mem3 40 (-3) = Except.ok mem3) :=
  cl_insert_negative_front 5 mem3 [(1, 10), (2, 20), (3, 30)] alloc4 40 (-3) (by decide)
    (by decide) (by decide) (by decide) (by decide)

/-- C24 (delete by value refines delete by index). For a well-formed list, whose
length is an `int`, and any comparator, `cl_delete_by_value` terminates without fault
and yields the state that `cl_delete_by_index(i)` yields, where `i` is the least
position whose payload makes the comparator return 0, or the length of the list (an
out-of-range index) when there is no such position; in that case the state is the
unchanged input state. -/
theorem cl_delete_by_value_refines (fuel : Nat) (m : Mem) (cells : List (Ptr × Ptr))
    (t : Int) (compare : Ptr → Int → Int) (hl : ListAt m.heap m.head cells)
    (hmax : (cells.length : Int) ≤ INT_MAX) (hf : cells.length < fuel) :
    (∃ m2, cl_delete_by_value fuel m t compare = Except.ok m2 ∧
      (cl_delete_by_index fuel m (first_match compare t (cells.map Prod.snd) : Nat)).map
        Prod.snd = Except.ok m2) ∧
    ((∀ c ∈ cells, compare c.2 t ≠ 0) →
      first_match compare t (cells.map Prod.snd) = cells.length ∧
      cl_delete_by_value fuel m t compare = Except.ok m) := by
  have hf1 : cells.length + 1 ≤ fuel := by omega
  have hnone : (∀ c ∈ cells, compare c.2 t ≠ 0) →
      first_match compare t (cells.map Prod.snd) = cells.length ∧
      cl_delete_by_value fuel m t compare = Except.ok m ∧
      cl_delete_by_index fuel m (first_match compare t (cells.map Prod.snd) : Nat)
        = Except.ok (NULL, m) := by
    intro hrej
    have hrej2 : ∀ v ∈ cells.map Prod.snd, compare v t ≠ 0 := by
      intro v hv
      obtain ⟨c, hc, hcv⟩ := List.mem_map.mp hv
      exact hcv ▸ hrej c hc
    have hfm : first_match compare t (cells.map Prod.snd) = cells.length := by
      rw [first_match_none hrej2, List.length_map]
    refine ⟨hfm, cl_delete_by_value_none hl hrej hf1, ?_⟩
    rw [hfm]
    exact cl_delete_by_index_end hl (le_refl _) hmax hf1
  refine ⟨?_, fun hrej => ⟨(hnone hrej).1, (hnone hrej).2.1⟩⟩
  by_cases hex : ∃ c ∈ cells, compare c.2 t = 0
  · obtain ⟨front, c, back, hsplit, hfront, hc⟩ :=
      split_at_first (fun c => compare c.2 t = 0) hex
    subst hsplit
    have hrej2 : ∀ v ∈ front.map Prod.snd, compare v t ≠ 0 := by
      intro v hv
      obtain ⟨d, hd, hdv⟩ := List.mem_map.mp hv
      exact hdv ▸ hfront d hd
    have hfm : first_match compare t ((front ++ c :: back).map Prod.snd) = front.length := by
      rw [List.map_append, List.map_cons, first_match_at hrej2 hc, List.length_map]
    have hlen : (front.length : Int) ≤ INT_MAX := by
      simp only [List.length_append, List.length_cons, Nat.cast_add, Nat.cast_one] at hmax
      omega
    have hfl : front.length + 1 ≤ fuel := by simp at hf1; omega
    obtain ⟨m2, p1, p2, _⟩ := cl_delete_value_index_same hl hfront hc rfl hlen hfl
    refine ⟨m2, p1, ?_⟩
    rw [hfm, p2]
    rfl
  · have hrej : ∀ c ∈ cells, compare c.2 t ≠ 0 := fun c hc hz => hex ⟨c, hc, hz⟩
    obtain ⟨_, q1, q2⟩ := hnone hrej
    refine ⟨m, q1, ?_⟩
    rw [q2]
    rfl

/-- C24 at the four-node list with the values 1, 2, 3, 2 and the target 2 (first match
at position 1), and at the three-node list with the target 9 (no match). -/
theorem cl_delete_by_value_refines_witness :
    ((∃ m2, cl_delete_by_value 5 mem4 2 (cl_compare_int int_at) = Except.ok m2 ∧
        (cl_delete_by_index 5 mem4 ((1 : Nat) : Int)).map Prod.snd = Except.ok m2) ∧
      ((∀ c ∈ ([(1, 10), (2, 20), (3, 30), (4, 21)] : List (Ptr × Ptr)),
          cl_compare_int int_at c.2 2 ≠ 0) →
        first_match (cl_compare_int int_at) 2 [10, 20, 30, 21] = 4 ∧
        cl_delete_by_value 5 mem4 2 (cl_compare_int int_at) = Except.ok mem4)) ∧
    ((∃ m2, cl_delete_by_value 5 mem3 9 (cl_compare_int int_at) = Except.ok m2 ∧
        (cl_delete_by_index 5 mem3 ((3 : Nat) : Int)).map Prod.snd = Except.ok m2) ∧
      ((∀ c ∈ ([(1, 10), (2, 20), (3, 30)] : List (Ptr × Ptr)),
          cl_compare_int int_at c.2 9 ≠ 0) →
        first_match (cl_compare_int int_at) 9 [10, 20, 30] = 3 ∧
        cl_delete_by_value 5 mem3 9 (cl_compare_int int_at) = Except.ok mem3)) :=
  ⟨cl_delete_by_value_refines 5 mem4 [(1, 10), (2, 20), (3, 30), (4, 21)] 2
      (cl_compare_int int_at) (by decide) (by decide) (by decide),
    cl_delete_by_value_refines 5 mem3 [(1, 10), (2, 20), (3, 30)] 9
      (cl_compare_int int_at) (by decide) (by decide) (by decide)⟩

/-- C25 (negative index on delete). For a non-empty well-formed list and a negative
index `k`, `cl_delete_by_index(k)` is the same computation as at index 0: it terminates
without fault, returns the payload of the head node and removes that node, so the
traversal afterwards is the original without its first element. -/
theorem cl_delete_negative_head (fuel : Nat) (m : Mem) (cells : List (Ptr × Ptr)) (k : Int)
    (hl : ListAt m.heap m.head cells) (hne : cells ≠ []) (hk : k < 0)
    (hf : cells.length < fuel) :
    cl_delete_by_index fuel m k = cl_delete_by_index fuel m 0 ∧
    ∃ v m2, cl_delete_by_index fuel m k = Except.ok (v, m2) ∧
      (cells.map Prod.snd).head? = some v ∧
      cl_print fuel m2.heap m2.head = Except.ok (cells.map Prod.snd).tail ∧
      ListAt m2.heap m2.head cells.tail := by
  have heq : cl_delete_by_index fuel m k = cl_delete_by_index fuel m 0 :=
    cl_delete_nonpos_eq_zero (le_of_lt hk) (by omega)
  obtain ⟨c, back, hcb⟩ := List.exists_cons_of_ne_nil hne
  subst hcb
  have hl2 : ListAt m.heap m.head ([] ++ c :: back) := hl
  have hi : (0 : Int) = (([] : List (Ptr × Ptr)).length : Nat) := by simp
  have hf1 : ([] : List (Ptr × Ptr)).length + 1 ≤ fuel := by simp; omega
  obtain ⟨m2, p1, p2, _⟩ := cl_delete_by_index_list hl2 hi (by decide) hf1
  have p2b : ListAt m2.heap m2.head back := p2
  refine ⟨heq, c.2, m2, heq.trans p1, rfl, ?_, p2b⟩
  rw [cl_print_list p2b (by simp at hf; omega)]
  rfl

/-- C25 at the three-node list and the index -2. -/
theorem cl_delete_negative_head_witness :
    cl_delete_by_index 4 mem3 (-2) = cl_delete_by_index 4 mem3 0 ∧
    ∃ v m2, cl_delete_by_index 4 mem3 (-2) = Except.ok (v, m2) ∧
      ([10, 20, 30] : List Ptr).head? = some v ∧
      cl_print 4 m2.heap m2.head = Except.ok [20, 30] ∧
      ListAt m2.heap m2.head [(2, 20), (3, 30)] :=
  cl_delete_negative_head 4 mem3 [(1, 10), (2, 20), (3, 30)] (-2) (by decide) (by decide)
    (by decide) (by decide)

/-- C26 (what `cl_clear` really does). For a non-empty well-formed list, `cl_clear`
terminates without fault and never writes the head: afterwards the head still designates
the original first node, every node of the original chain is still a live block with
payload and link both `NULL`, no block of the heap has been released (the deallocator
only receives `NULL`), the rest of the heap is untouched, and the traversal from the
head visits exactly one node, whose payload is `NULL`. -/
theorem cl_clear_zeroes_nodes (fuel : Nat) (m : Mem) (cells : List (Ptr × Ptr))
    (hl : ListAt m.heap m.head cells) (hne : cells ≠ []) (hf : cells.length < fuel) :
    ∃ m2, cl_clear fuel m = Except.ok m2 ∧ m2.head = m.head ∧
      (cells.map Prod.fst).head? = some m2.head ∧
      (∀ a ∈ cells.map Prod.fst, m2.heap a = some (t_node.mk NULL NULL)) ∧
      (∀ q, q ∉ cells.map Prod.fst → m2.heap q = m.heap q) ∧
      (∀ q, m2.heap q = none ↔ m.heap q = none) ∧
      cl_print fuel m2.heap m2.head = Except.ok [NULL] ∧
      ListAt m2.heap m2.head [(m.head, NULL)] := by
  have hhead : m.head ≠ NULL := ListAt_head_ne hl hne
  have hlive := Seg_live hl
  obtain ⟨h2, r1, r2, r3⟩ := cl_clear_loop_list hl hf
  obtain ⟨c, back, hcb⟩ := List.exists_cons_of_ne_nil hne
  subst hcb
  have hc : m.head = c.1 := hl.1
  have hmem : m.head ∈ (c :: back).map Prod.fst := by simp [hc]
  have hlist : ListAt h2 m.head [(m.head, NULL)] :=
    ⟨rfl, hhead, NULL, r2 m.head hmem, rfl⟩
  refine ⟨Mem.mk h2 m.head, ?_, rfl, by simp [hc], r2, r3, ?_, ?_, hlist⟩
  · unfold cl_clear
    simp only [hhead, if_false, r1]
  · intro q
    by_cases hq : q ∈ (c :: back).map Prod.fst
    · have h1 : h2 q ≠ none := by rw [r2 q hq]; simp
      have h3 : m.heap q ≠ none := (hlive q hq).2
      exact ⟨fun e => absurd e h1, fun e => absurd e h3⟩
    · show h2 q = none ↔ m.heap q = none
      rw [r3 q hq]
  · have hfl : ([(m.head, NULL)] : List (Ptr × Ptr)).length < fuel := by
      simp at hf ⊢; omega
    rw [cl_print_list hlist hfl]
    rfl

/-- C26 at the three-node list. -/
theorem cl_clear_zeroes_nodes_witness :
    ∃ m2, cl_clear 4 mem3 = Except.ok m2 ∧ m2.head = mem3.head ∧
      ([1, 2, 3] : List Ptr).head? = some m2.head ∧
      (∀ a ∈ ([1, 2, 3] : List Ptr), m2.heap a = some (t_node.mk NULL NULL)) ∧
      (∀ q, q ∉ ([1, 2, 3] : List Ptr) → m2.heap q = mem3.heap q) ∧
      (∀ q, m2.heap q = none ↔ mem3.heap q = none) ∧
      cl_print 4 m2.heap m2.head = Except.ok [NULL] ∧
      ListAt m2.heap m2.head [(mem3.head, NULL)] :=
  cl_clear_zeroes_nodes 4 mem3 [(1, 10), (2, 20), (3, 30)] (by decide) (by decide)
    (by decide)

end CList
